import Mathlib

/-!
Verification of the code-retrieval engine of the terminal-helper repository.

The definitions below are a shallow embedding of the TypeScript sources:

* `tokenize`, `stem`, `STOPWORDS` — `bm25.ts` (`BM25Index._tokenize`, `_stem`);
* `BM25Index` and its operations — `bm25.ts` (`addDocument`, `search`,
  `_calculateIDF`, `_calculateBM25Score`);
* `JSNum`, `VectorIndex`, `addToIndex`, `searchIndex` — `vectorStore.ts`
  (the external faiss-node `IndexFlatL2` is modelled as the exact flat L2
  store it is documented to be: an append-only list of vectors searched by
  exact squared L2 distance);
* `generateEmbeddingFromOutput` — `embeddings.ts` (`generateEmbedding`
  post-processing of the embedder response);
* `mergeResults`, `groupResultsByFile`, `identifyRootCauseFile` —
  `hybridSearch.ts`;
* `retrieveRelevantFiles` — `rag/index.ts`, with the outcomes of the three
  effectful sub-calls (`initializeRAG`, auto `indexCodebase`, the hybrid
  search that depends on the external embedder) supplied by a `RetrieveEnv`.

JavaScript floating-point numbers are idealised as exact rationals (for the
computable vector pipeline) and as real numbers with `Real.log` for
`Math.log` (for BM25 scoring).  JavaScript `Map` iteration order (insertion
order) is modelled by association lists whose `alSet` updates an existing
key in place and appends a fresh key at the end, exactly as V8 does.
`Array.prototype.sort`, stable per the ECMAScript specification, is
modelled by the stable insertion sorts `sortDescBy` / `sortAscBy`.
-/

/-- Association-list lookup, modelling `Map.get` / `Map.has`. -/
def alGet {κ α : Type} [DecidableEq κ] : List (κ × α) → κ → Option α
  | [], _ => none
  | (k', v) :: t, k => if k = k' then some v else alGet t k

/-- Association-list update, modelling `Map.set`: an existing key keeps its
position, a fresh key is appended at the end (JavaScript insertion order). -/
def alSet {κ α : Type} [DecidableEq κ] : List (κ × α) → κ → α → List (κ × α)
  | [], k, v => [(k, v)]
  | (k', v') :: t, k, v => if k = k' then (k, v) :: t else (k', v') :: alSet t k v

/-- Position of the first occurrence of a key in a list of keys. -/
def rankIn : List String → String → ℕ
  | [], _ => 0
  | k :: t, s => if s = k then 0 else rankIn t s + 1

/-- One step of a stable descending insertion sort: `x` is placed before the
first element whose key is not larger, so elements with equal keys keep
their original relative order (`x` comes from earlier in the input). -/
def insertDescBy {α β : Type} [LinearOrder β] (key : α → β) (x : α) : List α → List α
  | [] => [x]
  | y :: l => if key y ≤ key x then x :: y :: l else y :: insertDescBy key x l

/-- Stable sort by descending key, modelling the stable
`Array.prototype.sort((a, b) => key(b) - key(a))`. -/
def sortDescBy {α β : Type} [LinearOrder β] (key : α → β) (l : List α) : List α :=
  l.foldr (insertDescBy key) []

/-- One step of a stable ascending insertion sort. -/
def insertAscBy {α β : Type} [LinearOrder β] (key : α → β) (x : α) : List α → List α
  | [] => [x]
  | y :: l => if key x ≤ key y then x :: y :: l else y :: insertAscBy key x l

/-- Stable sort by ascending key (nearest-first ordering of L2 distances,
ties broken by the smaller index, as FAISS flat indices return them). -/
def sortAscBy {α β : Type} [LinearOrder β] (key : α → β) (l : List α) : List α :=
  l.foldr (insertAscBy key) []

/-! ## Tokenizer (`bm25.ts`) -/

/-- Tokenization options (`bm25.ts`, `TokenizationOptions`). -/
structure TokenizationOptions where
  lowercase : Bool
  removeStopwords : Bool
  stemming : Bool
  splitOnCode : Bool
deriving DecidableEq, Repr

/-- The constructor defaults: every option on (`bm25.ts` lines 143-148). -/
def defaultTokenizationOptions : TokenizationOptions :=
  { lowercase := true, removeStopwords := true, stemming := true, splitOnCode := true }

/-- The fixed English stopword set (`bm25.ts` lines 538-542). -/
def STOPWORDS : List String :=
  ["a", "an", "and", "are", "as", "at", "be", "but", "by", "for", "if", "in",
   "into", "is", "it", "no", "not", "of", "on", "or", "such", "that", "the",
   "their", "then", "there", "these", "they", "this", "to", "was", "will", "with"]

/-- Characters replaced by a space by the code-split step
(`bm25.ts` lines 322-325). -/
def isCodeDelimiter (c : Char) : Bool :=
  c ∈ ['{', '}', '(', ')', '[', ']'] ||
  c ∈ [';', ':', ',', '.'] ||
  c ∈ ['-', '+', '*', '/', '%', '=', '<', '>', '!', '&', '|', '^', '~']

/-- Split a character list into maximal runs of non-whitespace characters.
This models `text.split(/\s+/).filter(t => t.length > 0)` from
`bm25.ts` line 329 (the filter removes the empty fragments the JavaScript
split produces at separators, so only the non-empty runs remain). -/
def splitWs : List Char → List Char → List String
  | [], acc => if acc.isEmpty then [] else [String.mk acc.reverse]
  | c :: cs, acc =>
    if c.isWhitespace then
      if acc.isEmpty then splitWs cs []
      else String.mk acc.reverse :: splitWs cs []
    else splitWs cs (c :: acc)

/-- Suffix test on strings, by character lists
(models `String.prototype.endsWith`). -/
def strEndsWith (s suffix : String) : Bool :=
  suffix.toList.isSuffixOf s.toList

/-- Drop the last `n` characters (models `s.slice(0, -n)`). -/
def strDropRight (s : String) (n : ℕ) : String :=
  String.mk (s.toList.take (s.toList.length - n))

/-- The simplified stemmer (`bm25.ts`, `BM25Index._stem`, lines 349-372):
tokens of length at most 3 are untouched; otherwise the first matching rule
among `-ing`, `-ed`, `-s` (but not `-ss`), `-ly`, `-ment` fires, in exactly
that source order. -/
def stem (token : String) : String :=
  if token.toList.length ≤ 3 then token
  else if strEndsWith token "ing" then strDropRight token 3
  else if strEndsWith token "ed" then strDropRight token 2
  else if strEndsWith token "s" && !(strEndsWith token "ss") then strDropRight token 1
  else if strEndsWith token "ly" then strDropRight token 2
  else if strEndsWith token "ment" then strDropRight token 4
  else token

/-- The tokenizer (`bm25.ts`, `BM25Index._tokenize`, lines 308-342):
lowercase, replace code delimiters by spaces, split on whitespace, remove
stopwords, stem — each step only when the corresponding option is on. -/
def tokenize (opts : TokenizationOptions) (text : String) : List String :=
  let t1 := if opts.lowercase then String.mk (text.toList.map Char.toLower) else text
  let t2 :=
    if opts.splitOnCode then
      String.mk (t1.toList.map (fun c => if isCodeDelimiter c then ' ' else c))
    else t1
  let toks := splitWs t2.toList []
  let toks2 :=
    if opts.removeStopwords then toks.filter (fun tok => !(STOPWORDS.contains tok))
    else toks
  if opts.stemming then toks2.map stem else toks2

/-! ## BM25 index (`bm25.ts`) -/

/-- Chunk metadata (`bm25.ts`, `BM25DocumentMetadata`). -/
structure BM25DocumentMetadata where
  filePath : String
  fileName : String
  startLine : ℕ
  endLine : ℕ
  fileExt : String
  hasImports : Bool
deriving DecidableEq, Repr

/-- A document handed to the index (`bm25.ts`, `BM25Document`). -/
structure BM25Document where
  id : String
  content : String
  metadata : BM25DocumentMetadata
deriving DecidableEq, Repr

/-- A posting-list entry (`bm25.ts`, `Posting`). -/
structure Posting where
  docIndex : ℕ
  frequency : ℕ
deriving DecidableEq, Repr

/-- The BM25 index state (`bm25.ts`, class `BM25Index`).  `K` is the score
scalar: the JavaScript floats are idealised as elements of an ordered field
(`ℝ` in the claim statements, with `Real.log` for `Math.log`). -/
structure BM25Index (K : Type) where
  k1 : K
  b : K
  epsilon : K
  documents : List (String × String)
  documentMetadata : List (String × BM25DocumentMetadata)
  invertedIndex : List (String × List Posting)
  documentLengths : List ℕ
  averageDocumentLength : K
  documentCount : ℕ
  vocabulary : List String
  tokenizationOptions : TokenizationOptions

/-- The constructor with default options (`bm25.ts` lines 127-149):
`k1 = 1.2`, `b = 0.75`, `epsilon = 0.25`, empty state. -/
def mkBM25Index (K : Type) [LinearOrderedField K] : BM25Index K :=
  { k1 := 12 / 10, b := 3 / 4, epsilon := 1 / 4,
    documents := [], documentMetadata := [], invertedIndex := [],
    documentLengths := [], averageDocumentLength := 0, documentCount := 0,
    vocabulary := [], tokenizationOptions := defaultTokenizationOptions }

/-- One step of the token loop of `addDocument` (`bm25.ts` lines 184-192):
add the token to the vocabulary (a `Set`, so first occurrences keep their
position) and bump its frequency count. -/
def tallyToken (st : List String × List (String × ℕ)) (tok : String) :
    List String × List (String × ℕ) :=
  (if st.1.contains tok then st.1 else st.1 ++ [tok],
   alSet st.2 tok ((alGet st.2 tok).getD 0 + 1))

/-- `BM25Index.addDocument` (`bm25.ts` lines 155-205).  A document whose id
is already present is skipped; otherwise the content is tokenized, the
document appended, the running average document length updated by
`(avg·N + len) / (N + 1)` and the postings extended. -/
def BM25Index.addDocument {K : Type} [LinearOrderedField K]
    (idx : BM25Index K) (d : BM25Document) : BM25Index K :=
  if (alGet idx.documentMetadata d.id).isSome then idx
  else
    let tokens := tokenize idx.tokenizationOptions d.content
    let docIndex := idx.documentCount
    let docLength := tokens.length
    let totalLength := idx.averageDocumentLength * (idx.documentCount : K) + (docLength : K)
    let st := tokens.foldl tallyToken (idx.vocabulary, [])
    let inv := st.2.foldl
      (fun inv e => alSet inv e.1 ((alGet inv e.1).getD [] ++ [⟨docIndex, e.2⟩]))
      idx.invertedIndex
    { idx with
      documents := idx.documents ++ [(d.id, d.content)]
      documentMetadata := alSet idx.documentMetadata d.id d.metadata
      documentLengths := idx.documentLengths ++ [docLength]
      averageDocumentLength := totalLength / ((idx.documentCount : K) + 1)
      documentCount := idx.documentCount + 1
      vocabulary := st.1
      invertedIndex := inv }

/-- `BM25Index.addDocuments` (`bm25.ts` lines 211-215). -/
def BM25Index.addDocuments {K : Type} [LinearOrderedField K]
    (idx : BM25Index K) (docs : List BM25Document) : BM25Index K :=
  docs.foldl BM25Index.addDocument idx

/-- `BM25Index._calculateIDF` (`bm25.ts` lines 295-301), with `lg` standing
for `Math.log`. -/
def BM25Index.calculateIDF {K : Type} [LinearOrderedField K]
    (lg : K → K) (idx : BM25Index K) (term : String) : K :=
  let docsWithTerm : ℕ := ((alGet idx.invertedIndex term).getD []).length
  lg (1 + ((idx.documentCount : K) - (docsWithTerm : K) + 1 / 2) / ((docsWithTerm : K) + 1 / 2)
        + idx.epsilon)

/-- `BM25Index._calculateBM25Score` (`bm25.ts` lines 279-288). -/
def BM25Index.calculateBM25Score {K : Type} [LinearOrderedField K]
    (idx : BM25Index K) (docIndex : ℕ) (termFrequency : ℕ) (idf : K) : K :=
  let docLength : K := (idx.documentLengths.getD docIndex 0 : ℕ)
  let avgDocLength := idx.averageDocumentLength
  idf * (((termFrequency : K) * (idx.k1 + 1)) /
    ((termFrequency : K) + idx.k1 * (1 - idx.b + idx.b * (docLength / avgDocLength))))

/-- The `id` of the document at a position (`this.documents[docIndex].id`). -/
def BM25Index.docIdAt {K : Type} (idx : BM25Index K) (i : ℕ) : String :=
  (idx.documents.getD i ("", "")).1

/-- The inner loops of `BM25Index.search` (`bm25.ts` lines 230-257): for one
query term found in the inverted index, add the term's BM25 contribution to
every posted document's running score in the score map. -/
def BM25Index.scoreTerm {K : Type} [LinearOrderedField K]
    (lg : K → K) (idx : BM25Index K) (m : List (String × K)) (term : String) :
    List (String × K) :=
  match alGet idx.invertedIndex term with
  | none => m
  | some postings =>
    let idf := BM25Index.calculateIDF lg idx term
    postings.foldl
      (fun m p =>
        let docId := idx.docIdAt p.docIndex
        let s := BM25Index.calculateBM25Score idx p.docIndex p.frequency idf
        alSet m docId ((alGet m docId).getD 0 + s))
      m

/-- The accumulated score map of `BM25Index.search`, as the entry list of
the JavaScript `Map` in insertion order. -/
def BM25Index.scoreEntries {K : Type} [LinearOrderedField K]
    (lg : K → K) (idx : BM25Index K) (query : String) : List (String × K) :=
  (tokenize idx.tokenizationOptions query).foldl (BM25Index.scoreTerm lg idx) []

/-- A search result (`bm25.ts`, `BM25SearchResult`). -/
structure BM25SearchResult (K : Type) where
  id : String
  score : K
  metadata : BM25DocumentMetadata

/-- Fallback metadata for the non-null assertion `documentMetadata.get(docId)!`. -/
def defaultBM25Metadata : BM25DocumentMetadata :=
  { filePath := "", fileName := "", startLine := 0, endLine := 0, fileExt := "", hasImports := false }

/-- `BM25Index.search` (`bm25.ts` lines 223-270): tokenize the query,
accumulate scores, sort descending by score with the stable array sort, and
take the first `k` results. -/
def BM25Index.search {K : Type} [LinearOrderedField K]
    (lg : K → K) (idx : BM25Index K) (query : String) (k : ℕ) :
    List (BM25SearchResult K) :=
  let results := (BM25Index.scoreEntries lg idx query).map
    (fun e => BM25SearchResult.mk e.1 e.2 ((alGet idx.documentMetadata e.1).getD defaultBM25Metadata))
  (sortDescBy (fun r => r.score) results).take k

/-! ## Vector store (`vectorStore.ts`) -/

/-- A JavaScript number as seen by the vector pipeline: a finite value
(idealised as a rational) or one of the non-finite values `NaN`,
`Infinity`, `-Infinity`. -/
inductive JSNum where
  | num (val : ℚ)
  | nan
  | inf
  | ninf
deriving DecidableEq, Repr

/-- `Number.isFinite` / `isFinite(x)`. -/
def JSNum.isFinite : JSNum → Bool
  | num _ => true
  | _ => false

/-- Project a `JSNum` to its rational value (only used on finite values;
the vector store replaces non-finite values before storing). -/
def JSNum.toRat : JSNum → ℚ
  | num v => v
  | _ => 0

/-- Metadata stored per vector (`vectorStore.ts`, `VectorMetadata`; every
field is optional in the TypeScript interface). -/
structure VectorMetadata where
  filePath : Option String
  startLine : Option ℕ
  endLine : Option ℕ
  content : Option String
  displayContent : Option String
  fileName : Option String
  fileExt : Option String
  directory : Option String
  hasImports : Option Bool
deriving DecidableEq, Repr

/-- `VectorMetadata` with every field absent. -/
def emptyVectorMetadata : VectorMetadata :=
  { filePath := none, startLine := none, endLine := none, content := none,
    displayContent := none, fileName := none, fileExt := none,
    directory := none, hasImports := none }

/-- A chunk handed to `addToIndex` (`vectorStore.ts`, `ChunkWithEmbedding`).
Per the declared TypeScript type the embedding is a `Float32Array` or
`null`, modelled as an optional list of `JSNum`.  `hasImportsMeta` is the
nested `chunk.metadata?.hasImports`. -/
structure ChunkWithEmbedding where
  filePath : String
  startLine : ℕ
  endLine : ℕ
  content : String
  embedding : Option (List JSNum)
  displayContent : Option String
  hasImportsMeta : Option Bool
deriving DecidableEq, Repr

/-- The metadata `addToIndex` stores for a chunk: the chunk minus its
embedding (`const { embedding: _, ...metadata } = chunk`).  The spread
keeps `filePath`, `startLine`, `endLine`, `content` and `displayContent`;
the stored object has no top-level `fileName`, `fileExt`, `directory` or
`hasImports` property (the chunker's `hasImports` sits nested under
`chunk.metadata`), so those read back as `undefined`. -/
def chunkStoredMetadata (c : ChunkWithEmbedding) : VectorMetadata :=
  { filePath := some c.filePath, startLine := some c.startLine,
    endLine := some c.endLine, content := some c.content,
    displayContent := c.displayContent, fileName := none, fileExt := none,
    directory := none, hasImports := none }

/-- The vector index wrapper (`vectorStore.ts`, `VectorIndex`).  The FAISS
`IndexFlatL2` instance is modelled by its flat list of stored vectors. -/
structure VectorIndex where
  dimension : ℕ
  size : ℕ
  vectors : List (List ℚ)
  idToMetadata : List (ℕ × VectorMetadata)
deriving DecidableEq, Repr

/-- `createFAISSIndex` with the default dimension
(`vectorStore.ts` lines 1017-1060): an empty index of dimension 768. -/
def mkVectorIndex : VectorIndex :=
  { dimension := 768, size := 0, vectors := [], idToMetadata := [] }

/-- The dimension fix of the `Float32Array` branch of `addToIndex`
(`vectorStore.ts` lines 1115-1128): a vector of length other than 768 is
copied into a zero-filled buffer of length 768 — truncating or
right-padding with `0`. -/
def fitDimension (e : List JSNum) : List JSNum :=
  if e.length = 768 then e
  else e.take 768 ++ List.replicate (768 - e.length) (JSNum.num 0)

/-- The finiteness gate of `addToIndex` (`vectorStore.ts` lines 1170-1175)
followed by the store: if ANY component is non-finite the WHOLE vector is
replaced by `Float32Array(768).fill(0.1)`; otherwise the components are
stored unchanged. -/
def finalizeEmbedding (e : List JSNum) : List ℚ :=
  let p := fitDimension e
  if p.any (fun x => !x.isFinite) then List.replicate 768 (1 / 10)
  else p.map JSNum.toRat

/-- `addToIndex` (`vectorStore.ts` lines 1088-1226): chunks without an
embedding are skipped; each remaining embedding is dimension-fixed and
finiteness-gated, appended to the FAISS index, and its metadata is stored
under the dense id `startId + i`. -/
def VectorIndex.addToIndex (w : VectorIndex) (chunks : List ChunkWithEmbedding) : VectorIndex :=
  let valid := chunks.filterMap
    (fun c => (c.embedding).map (fun e => (finalizeEmbedding e, c)))
  if valid.length = 0 then w
  else
    let startId := w.size
    { w with
      vectors := w.vectors ++ valid.map Prod.fst
      size := w.size + valid.length
      idToMetadata := valid.enum.foldl
        (fun m e => alSet m (startId + e.1) (chunkStoredMetadata e.2.2))
        w.idToMetadata }

/-- Exact squared L2 distance, as computed by `IndexFlatL2`. -/
def l2distSq (v q : List ℚ) : ℚ :=
  (v.zip q).foldl (fun acc p => acc + (p.1 - p.2) * (p.1 - p.2)) 0

/-- A vector search result (`vectorStore.ts`, `VectorSearchResult`): note
that `id` is the integer FAISS label of the vector, not a chunk id. -/
structure VectorSearchResult where
  id : ℕ
  score : ℚ
  distance : ℚ
  metadata : VectorMetadata
deriving DecidableEq, Repr

/-- `searchIndex` (`vectorStore.ts` lines 1235-1316).  The external FAISS
flat search is modelled exactly: the `min k size` stored vectors nearest to
the query by squared L2 distance, ascending, ties by the smaller label.
The wrapper then drops labels without metadata, converts each distance to
the similarity `max 0 (1 - d / 100)` and sorts by score descending. -/
def VectorIndex.searchIndex (w : VectorIndex) (query : List ℚ) (k : ℕ) :
    List VectorSearchResult :=
  let safeK := min k w.size
  if safeK = 0 then []
  else
    let pairs := w.vectors.enum.map (fun e => (e.1, l2distSq e.2 query))
    let nearest := (sortAscBy (fun p => p.2) pairs).take safeK
    let results := nearest.filterMap
      (fun p => (alGet w.idToMetadata p.1).map
        (fun meta => VectorSearchResult.mk p.1 (max 0 (1 - p.2 / 100)) p.2 meta))
    sortDescBy (fun r => r.score) results

/-! ## Embedding post-processing (`embeddings.ts`, `generateEmbedding`) -/

/-- What the embedder call inside `generateEmbedding` produced: either the
service client's `[{ values: Float32Array, dims }]` wrapper around the
response vector, or a thrown error. -/
inductive EmbeddingModelOutcome where
  | service (values : List JSNum)
  | failure (msg : String)
deriving DecidableEq, Repr

/-- The post-processing of `generateEmbedding` (`embeddings.ts` lines
329-373) applied to the model outcome.  On the service format the vector is
taken as-is and only its LENGTH is fixed: shorter than 768 is right-padded
with `0.1`, longer is truncated (`splice(768)`).  No finiteness check is
performed on this path.  A thrown error is caught and replaced by the
fallback vector `fill(0.1)`. -/
def generateEmbeddingFromOutput (out : EmbeddingModelOutcome) : List JSNum :=
  match out with
  | .failure _ => List.replicate 768 (JSNum.num (1 / 10))
  | .service vals =>
    if vals.length < 768 then vals ++ List.replicate (768 - vals.length) (JSNum.num (1 / 10))
    else if 768 < vals.length then vals.take 768
    else vals

/-! ## Hybrid search (`hybridSearch.ts`) -/

/-- `SearchResultMetadata` (`hybridSearch.ts` lines 34-47). -/
structure SearchResultMetadata where
  filePath : String
  fileName : String
  startLine : ℕ
  endLine : ℕ
  fileExt : String
  hasImports : Bool
deriving DecidableEq, Repr

/-- `SearchResult` (`hybridSearch.ts` lines 18-31).  The metadata is kept
optional to model the JavaScript `!metadata` guards in
`groupResultsByFile` and `identifyRootCauseFile`. -/
structure SearchResult (K : Type) where
  id : String
  bm25Score : K
  vectorScore : K
  combinedScore : K
  metadata : Option SearchResultMetadata
  rootCauseScore : Option K

/-- `toSearchResultMetadata` (`hybridSearch.ts` lines 137-146). -/
def toSearchResultMetadata (m : BM25DocumentMetadata) : SearchResultMetadata :=
  { filePath := m.filePath, fileName := m.fileName, startLine := m.startLine,
    endLine := m.endLine, fileExt := m.fileExt, hasImports := m.hasImports }

/-- `vectorToSearchResultMetadata` (`hybridSearch.ts` lines 151-160):
missing fields default to `''`, `0`, `false`. -/
def vectorToSearchResultMetadata (m : VectorMetadata) : SearchResultMetadata :=
  { filePath := m.filePath.getD "", fileName := m.fileName.getD "",
    startLine := m.startLine.getD 0, endLine := m.endLine.getD 0,
    fileExt := m.fileExt.getD "", hasImports := m.hasImports.getD false }

/-- The BM25 loop of `mergeResults` (`hybridSearch.ts` lines 180-196): the
combined-score map is keyed by the BM25 result id (the chunk id string). -/
def mergeStepBM25 {K : Type} [LinearOrderedField K]
    (m : List (String × SearchResult K)) (r : BM25SearchResult K) :
    List (String × SearchResult K) :=
  let base := (alGet m r.id).getD
    { id := r.id, bm25Score := 0, vectorScore := 0, combinedScore := 0,
      metadata := some (toSearchResultMetadata r.metadata), rootCauseScore := none }
  alSet m r.id
    { base with
      bm25Score := r.score,
      metadata := some (toSearchResultMetadata r.metadata) }

/-- The vector loop of `mergeResults` (`hybridSearch.ts` lines 199-216):
the map key is `String(id)` — the DECIMAL STRING of the integer FAISS
label, not a chunk id. -/
def mergeStepVector {K : Type} [LinearOrderedField K]
    (m : List (String × SearchResult K)) (r : VectorSearchResult) :
    List (String × SearchResult K) :=
  let idStr := toString r.id
  let base := (alGet m idStr).getD
    { id := idStr, bm25Score := 0, vectorScore := 0, combinedScore := 0,
      metadata := some (vectorToSearchResultMetadata r.metadata), rootCauseScore := none }
  alSet m idStr
    { base with
      vectorScore := ((r.score : ℚ) : K),
      metadata := some (vectorToSearchResultMetadata r.metadata) }

/-- `mergeResults` (`hybridSearch.ts` lines 170-226): fold both result
lists into one map, set each entry's combined score to
`bm25Score·bm25Weight + vectorScore·vectorWeight`, and sort descending by
combined score (stable array sort). -/
def mergeResults {K : Type} [LinearOrderedField K]
    (bm25Results : List (BM25SearchResult K)) (vectorResults : List VectorSearchResult)
    (bm25Weight vectorWeight : K) : List (SearchResult K) :=
  let m1 := bm25Results.foldl mergeStepBM25 []
  let m2 := vectorResults.foldl mergeStepVector m1
  let entries := m2.map (fun e =>
    { e.2 with combinedScore := e.2.bm25Score * bm25Weight + e.2.vectorScore * vectorWeight })
  sortDescBy (fun r => r.combinedScore) entries

/-- A per-file group (`hybridSearch.ts`, `GroupedSearchResult`). -/
structure GroupedSearchResult (K : Type) where
  filePath : String
  fileName : String
  chunks : List (SearchResult K)
  maxScore : K
  totalScore : K

/-- The loop body of `groupResultsByFile` (`hybridSearch.ts` lines
333-356): results without metadata or with an empty (falsy) `filePath` are
skipped; the others are appended to the group of their `filePath`, which
starts at `maxScore = 0`, `totalScore = 0` and is updated by
`totalScore += combinedScore` and `maxScore = max(maxScore, combinedScore)`. -/
def groupStep {K : Type} [LinearOrderedField K]
    (m : List (String × GroupedSearchResult K)) (r : SearchResult K) :
    List (String × GroupedSearchResult K) :=
  match r.metadata with
  | none => m
  | some md =>
    if md.filePath = "" then m
    else
      let g := (alGet m md.filePath).getD
        { filePath := md.filePath, fileName := md.fileName, chunks := [],
          maxScore := 0, totalScore := 0 }
      alSet m md.filePath
        { g with
          chunks := g.chunks ++ [r],
          totalScore := g.totalScore + r.combinedScore,
          maxScore := max g.maxScore r.combinedScore }

/-- `groupResultsByFile` (`hybridSearch.ts` lines 330-361). -/
def groupResultsByFile {K : Type} [LinearOrderedField K]
    (results : List (SearchResult K)) : List (GroupedSearchResult K) :=
  sortDescBy (fun g => g.maxScore) ((results.foldl groupStep []).map (fun e => e.2))

/-- `identifyRootCauseFile` (`hybridSearch.ts` lines 282-323), with the
file names the regex scan extracted from the error log supplied as
`mentionedFiles`: boost by 1.5 when the result's file name is truthy and
mentioned, by 1.2 when it has imports, then return the top result of the
stable descending sort by root-cause score. -/
def identifyRootCauseFile {K : Type} [LinearOrderedField K]
    (searchResults : List (SearchResult K)) (mentionedFiles : List String) :
    Option (SearchResult K) :=
  if searchResults.isEmpty then none
  else
    let scored := searchResults.map (fun r =>
      match r.metadata with
      | some md =>
        let s1 := if md.fileName ≠ "" ∧ md.fileName ∈ mentionedFiles
          then r.combinedScore * (3 / 2) else r.combinedScore
        let s2 := if md.hasImports then s1 * (12 / 10) else s1
        { r with rootCauseScore := some s2 }
      | none => { r with rootCauseScore := some r.combinedScore })
    (sortDescBy (fun r => (r.rootCauseScore).getD 0) scored).head?

/-! ## `retrieveRelevantFiles` (`rag/index.ts`) -/

/-- `RetrieveResult` (`rag/index.ts` lines 131-138). -/
structure RetrieveResult (K : Type) where
  results : List (SearchResult K)
  groupedResults : List (GroupedSearchResult K)
  rootCauseFile : Option (SearchResult K)

/-- The empty result returned on the recoverable paths. -/
def emptyRetrieveResult (K : Type) : RetrieveResult K :=
  { results := [], groupedResults := [], rootCauseFile := none }

/-- The outcomes of the effectful sub-calls of `retrieveRelevantFiles`:
what `initializeRAG` returned (or threw), what the auto `indexCodebase`
returned (or threw), and what the `hybridSearch` call returned (or threw —
it depends on the external embedder).  `mentionedFiles` abstracts the
regex scan of the error log used by `identifyRootCauseFile`. -/
structure RetrieveEnv (K : Type) where
  initRag : Except String (VectorIndex × BM25Index K)
  autoIndex : Except String (VectorIndex × BM25Index K)
  searchOutcome : Except String (List (SearchResult K))
  mentionedFiles : List String

/-- The search phase of `retrieveRelevantFiles` (`rag/index.ts` lines
488-511): run the hybrid search, group the results, and identify the root
cause when there are results. -/
def retrieveSearchPhase {K : Type} [LinearOrderedField K]
    (env : RetrieveEnv K) : Except String (RetrieveResult K) :=
  match env.searchOutcome with
  | .error e => .error e
  | .ok results =>
    .ok { results := results,
          groupedResults := groupResultsByFile results,
          rootCauseFile :=
            if 0 < results.length then identifyRootCauseFile results env.mentionedFiles
            else none }

/-- The body of the outer `try` of `retrieveRelevantFiles` (`rag/index.ts`
lines 444-511): initialise; when an index is empty, auto-index — an
auto-indexing error or a still-empty vector index yields the empty result;
otherwise run the search phase. -/
def retrieveBody {K : Type} [LinearOrderedField K]
    (env : RetrieveEnv K) : Except String (RetrieveResult K) :=
  match env.initRag with
  | .error e => .error e
  | .ok (vi, bi) =>
    if vi.size = 0 ∨ bi.documentCount = 0 then
      match env.autoIndex with
      | .error _ => .ok (emptyRetrieveResult K)
      | .ok (vi2, _) =>
        if vi2.size = 0 then .ok (emptyRetrieveResult K)
        else retrieveSearchPhase env
    else retrieveSearchPhase env

/-- `retrieveRelevantFiles` (`rag/index.ts` lines 436-516).  The outer
`catch` does NOT swallow the error: it wraps it and re-throws
(`throw new Error('Failed to retrieve relevant files: ...')`). -/
def retrieveRelevantFiles {K : Type} [LinearOrderedField K]
    (env : RetrieveEnv K) : Except String (RetrieveResult K) :=
  match retrieveBody env with
  | .ok r => .ok r
  | .error e => .error ("Failed to retrieve relevant files: " ++ e)

/-! ## Reachable-state invariants and concrete instances used by the claims -/

/-- Invariants of every BM25 index reachable from the default constructor by
`addDocument` calls.  They capture exactly what the scoring code relies on:
the parameters are the defaults, the bookkeeping lengths agree, every
posting points at a real document with positive frequency and a non-empty
token list, and the running average length times the document count is the
total token count. -/
structure BM25Inv {K : Type} [LinearOrderedField K] (idx : BM25Index K) : Prop where
  params_k1 : idx.k1 = 12 / 10
  params_b : idx.b = 3 / 4
  params_eps : idx.epsilon = 1 / 4
  docs_len : idx.documents.length = idx.documentCount
  lens_len : idx.documentLengths.length = idx.documentCount
  postings_count : ∀ tp ∈ idx.invertedIndex, tp.2.length ≤ idx.documentCount
  postings_ne : ∀ tp ∈ idx.invertedIndex, tp.2 ≠ []
  postings_ok : ∀ tp ∈ idx.invertedIndex, ∀ p ∈ tp.2,
    p.docIndex < idx.documentCount ∧ 1 ≤ p.frequency ∧
      1 ≤ idx.documentLengths.getD p.docIndex 0
  inv_nodup : (idx.invertedIndex.map Prod.fst).Nodup
  avg_eq : idx.averageDocumentLength * (idx.documentCount : K) =
    ((idx.documentLengths.sum : ℕ) : K)

/-- The document of spec §8 seed 3: length 10, token `foo` twice, padded
with 8 unique tokens (none a stopword, none stemmable). -/
def fooPaddedDoc : BM25Document :=
  { id := "d1", content := "foo foo ab1 ab2 ab3 ab4 ab5 ab6 ab7 ab8",
    metadata := defaultBM25Metadata }

/-- The singleton index of spec §8 seed 3. -/
noncomputable def fooPaddedIndex : BM25Index ℝ := (mkBM25Index ℝ).addDocument fooPaddedDoc

/-- The BM25 score the seed-3 search assigns to `d1` for the query `foo`
(the accumulated `0 + idf·tf` of the single posting with frequency 2). -/
noncomputable def fooPaddedScore : ℝ :=
  0 + BM25Index.calculateBM25Score fooPaddedIndex 0 2
    (BM25Index.calculateIDF Real.log fooPaddedIndex "foo")

/-- First document of the tie-break scenario: its only token is `alpha`. -/
def alphaDoc : BM25Document :=
  { id := "a", content := "alpha", metadata := defaultBM25Metadata }

/-- Second document of the tie-break scenario: its only token is `beta`. -/
def betaDoc : BM25Document :=
  { id := "b", content := "beta", metadata := defaultBM25Metadata }

/-- A two-document index in which the query `beta alpha` scores both
documents identically. -/
noncomputable def alphaBetaIndex : BM25Index ℝ := (mkBM25Index ℝ).addDocuments [alphaDoc, betaDoc]

/-- The score the `beta alpha` search accumulates for document `b`
(document index 1, frequency 1, idf of `beta`). -/
noncomputable def alphaBetaScoreB : ℝ :=
  0 + BM25Index.calculateBM25Score alphaBetaIndex 1 1
    (BM25Index.calculateIDF Real.log alphaBetaIndex "beta")

/-- The score the `beta alpha` search accumulates for document `a`
(document index 0, frequency 1, idf of `alpha`). -/
noncomputable def alphaBetaScoreA : ℝ :=
  0 + BM25Index.calculateBM25Score alphaBetaIndex 0 1
    (BM25Index.calculateIDF Real.log alphaBetaIndex "alpha")

/-- Metadata of the one chunk indexed by BOTH indices in the hybrid-merge
scenario. -/
def sharedChunkBM25Metadata : BM25DocumentMetadata :=
  { filePath := "a.ts", fileName := "a.ts", startLine := 1, endLine := 2,
    fileExt := ".ts", hasImports := false }

/-- BM25 index containing exactly the chunk `a.ts:1-2`. -/
noncomputable def mergeDemoBM25Index : BM25Index ℝ :=
  (mkBM25Index ℝ).addDocument
    { id := "a.ts:1-2", content := "foo", metadata := sharedChunkBM25Metadata }

/-- The same chunk `a.ts:1-2` as handed to the vector index, with an
all-zero embedding. -/
def sharedChunk : ChunkWithEmbedding :=
  { filePath := "a.ts", startLine := 1, endLine := 2, content := "foo",
    embedding := some (List.replicate 768 (JSNum.num 0)),
    displayContent := none, hasImportsMeta := none }

/-- Vector index containing exactly the chunk `a.ts:1-2`, under the
integer label 0. -/
def mergeDemoVectorIndex : VectorIndex := mkVectorIndex.addToIndex [sharedChunk]

/-- An all-zero query embedding (distance 0 to the stored vector). -/
def zeroQueryVec : List ℚ := List.replicate 768 0

/-- A chunk whose embedding contains a NaN component next to the finite
component 5. -/
def nanChunk : ChunkWithEmbedding :=
  { filePath := "a.ts", startLine := 1, endLine := 2, content := "x",
    embedding := some [JSNum.nan, JSNum.num 5],
    displayContent := none, hasImportsMeta := none }

/-- A chunk with a well-formed 3-component embedding. -/
def smallChunk : ChunkWithEmbedding :=
  { filePath := "b.ts", startLine := 3, endLine := 4, content := "y",
    embedding := some [JSNum.num 1, JSNum.num 2, JSNum.num 3],
    displayContent := none, hasImportsMeta := none }

/-- Environment in which initialisation succeeds with non-empty indices
and the hybrid search throws (for example because the embedder is down). -/
noncomputable def retrieveEnvSearchFails : RetrieveEnv ℝ :=
  { initRag := .ok (mergeDemoVectorIndex, mergeDemoBM25Index),
    autoIndex := .ok (mkVectorIndex, mkBM25Index ℝ),
    searchOutcome := .error "embedder unavailable",
    mentionedFiles := [] }

/-- Environment in which the indices are empty and the automatic indexing
throws. -/
noncomputable def retrieveEnvAutoIndexFails : RetrieveEnv ℝ :=
  { initRag := .ok (mkVectorIndex, mkBM25Index ℝ),
    autoIndex := .error "no files",
    searchOutcome := .ok [],
    mentionedFiles := [] }

/-- The BM25 score the merge-scenario search assigns to the chunk
`a.ts:1-2` for the query `foo` (the accumulated `0 + idf·tf` of the single
posting). -/
noncomputable def mergeDemoScore : ℝ :=
  0 + BM25Index.calculateBM25Score mergeDemoBM25Index 0 1
    (BM25Index.calculateIDF Real.log mergeDemoBM25Index "foo")

/-- A search result with a negative combined score and a non-empty file
path. -/
noncomputable def negativeScoreResult : SearchResult ℝ :=
  { id := "c", bm25Score := 0, vectorScore := 0, combinedScore := -1,
    metadata := some { filePath := "/tmp/a.ts", fileName := "a.ts",
                       startLine := 1, endLine := 2, fileExt := ".ts",
                       hasImports := false },
    rootCauseScore := none }

/-- The well-formedness invariant of the grouping map: each entry's group
carries the entry's key as its non-empty file path, each chunk in a group
has that file path, the totals and maxima are the sums and zero-floored
maxima of the group's chunks, and the keys are distinct. -/
def GroupMapWF {K : Type} [LinearOrderedField K]
    (m : List (String × GroupedSearchResult K)) : Prop :=
  (∀ e ∈ m, e.2.filePath = e.1 ∧ e.1 ≠ "") ∧
  (∀ e ∈ m, ∀ x ∈ e.2.chunks, ∃ md, x.metadata = some md ∧ md.filePath = e.1) ∧
  (∀ e ∈ m, e.2.totalScore = (e.2.chunks.map (fun c => c.combinedScore)).sum ∧
    e.2.maxScore = (e.2.chunks.map (fun c => c.combinedScore)).foldl max 0) ∧
  (m.map Prod.fst).Nodup

/-- Whether `groupResultsByFile` keeps a result: it must carry metadata
with a non-empty (truthy) `filePath`. -/
def keptResult {K : Type} (r : SearchResult K) : Bool :=
  match r.metadata with
  | some md => !(md.filePath == "")
  | none => false

/-! # Theorems

General lemmas about the stable sorts and association lists, the
reachable-state invariant, and then one theorem (with witness or
counterexample) per claim. -/

theorem insertDescBy_perm {α β : Type} [LinearOrder β] (key : α → β) (x : α) (l : List α) :
    List.Perm (insertDescBy key x l) (x :: l) := by
  induction l with
  | nil => rfl
  | cons y t ih =>
    rw [insertDescBy]
    split
    · rfl
    · exact (ih.cons y).trans (List.Perm.swap x y t)

theorem sortDescBy_perm {α β : Type} [LinearOrder β] (key : α → β) (l : List α) :
    List.Perm (sortDescBy key l) l := by
  induction l with
  | nil => rfl
  | cons x t ih =>
    have h : sortDescBy key (x :: t) = insertDescBy key x (sortDescBy key t) := rfl
    rw [h]
    exact (insertDescBy_perm key x (sortDescBy key t)).trans (ih.cons x)

theorem sortDescBy_length {α β : Type} [LinearOrder β] (key : α → β) (l : List α) :
    (sortDescBy key l).length = l.length :=
  (sortDescBy_perm key l).length_eq

theorem mem_sortDescBy {α β : Type} [LinearOrder β] {key : α → β} {l : List α} {a : α} :
    a ∈ sortDescBy key l ↔ a ∈ l :=
  (sortDescBy_perm key l).mem_iff

theorem mem_insertDescBy {α β : Type} [LinearOrder β] {key : α → β} {x a : α} {l : List α} :
    a ∈ insertDescBy key x l ↔ a = x ∨ a ∈ l :=
  ((insertDescBy_perm key x l).mem_iff).trans (List.mem_cons)

theorem insertDescBy_pairwise_lex {α β : Type} [LinearOrder β] (key : α → β) (rk : α → ℕ)
    (x : α) (l : List α)
    (hl : l.Pairwise (fun a b => key b < key a ∨ (key a = key b ∧ rk a < rk b)))
    (hx : ∀ y ∈ l, rk x < rk y) :
    (insertDescBy key x l).Pairwise
      (fun a b => key b < key a ∨ (key a = key b ∧ rk a < rk b)) := by
  induction l with
  | nil => simp [insertDescBy]
  | cons y t ih =>
    rcases List.pairwise_cons.mp hl with ⟨hy, ht⟩
    rw [insertDescBy]
    split
    case isTrue h =>
      refine List.pairwise_cons.mpr ⟨?_, hl⟩
      intro z hz
      rcases List.mem_cons.mp hz with rfl | hz
      · rcases lt_or_eq_of_le h with h2 | h2
        · exact Or.inl h2
        · exact Or.inr ⟨h2.symm, hx z (List.mem_cons_self z t)⟩
      · have hzy : key z ≤ key y := by
          rcases hy z hz with h1 | ⟨h1, _⟩
          · exact le_of_lt h1
          · exact le_of_eq h1.symm
        rcases lt_or_eq_of_le (le_trans hzy h) with h2 | h2
        · exact Or.inl h2
        · exact Or.inr ⟨h2.symm, hx z (List.mem_cons_of_mem y hz)⟩
    case isFalse h =>
      refine List.pairwise_cons.mpr
        ⟨?_, ih ht (fun z hz => hx z (List.mem_cons_of_mem y hz))⟩
      intro z hz
      rcases mem_insertDescBy.mp hz with rfl | hz
      · exact Or.inl (lt_of_not_le h)
      · exact hy z hz

theorem sortDescBy_pairwise_lex {α β : Type} [LinearOrder β] (key : α → β) (rk : α → ℕ)
    (l : List α) (hl : l.Pairwise (fun a b => rk a < rk b)) :
    (sortDescBy key l).Pairwise
      (fun a b => key b < key a ∨ (key a = key b ∧ rk a < rk b)) := by
  induction l with
  | nil => simp [sortDescBy]
  | cons x t ih =>
    rcases List.pairwise_cons.mp hl with ⟨hx, ht⟩
    have h : sortDescBy key (x :: t) = insertDescBy key x (sortDescBy key t) := rfl
    rw [h]
    refine insertDescBy_pairwise_lex key rk x (sortDescBy key t) (ih ht) ?_
    intro y hy
    exact hx y (mem_sortDescBy.mp hy)

theorem insertDescBy_sorted {α β : Type} [LinearOrder β] (key : α → β) (x : α) (l : List α)
    (hl : l.Pairwise (fun a b => key b ≤ key a)) :
    (insertDescBy key x l).Pairwise (fun a b => key b ≤ key a) := by
  induction l with
  | nil => simp [insertDescBy]
  | cons y t ih =>
    rcases List.pairwise_cons.mp hl with ⟨hy, ht⟩
    rw [insertDescBy]
    split
    case isTrue h =>
      refine List.pairwise_cons.mpr ⟨?_, hl⟩
      intro z hz
      rcases List.mem_cons.mp hz with rfl | hz
      · exact h
      · exact le_trans (hy z hz) h
    case isFalse h =>
      refine List.pairwise_cons.mpr ⟨?_, ih ht⟩
      intro z hz
      rcases mem_insertDescBy.mp hz with rfl | hz
      · exact le_of_lt (lt_of_not_le h)
      · exact hy z hz

theorem sortDescBy_sorted {α β : Type} [LinearOrder β] (key : α → β) (l : List α) :
    (sortDescBy key l).Pairwise (fun a b => key b ≤ key a) := by
  induction l with
  | nil => simp [sortDescBy]
  | cons x t ih =>
    have h : sortDescBy key (x :: t) = insertDescBy key x (sortDescBy key t) := rfl
    rw [h]
    exact insertDescBy_sorted key x (sortDescBy key t) ih

theorem alSet_fst {κ α : Type} [DecidableEq κ] (m : List (κ × α)) (k : κ) (v : α) :
    (alSet m k v).map Prod.fst =
      if k ∈ m.map Prod.fst then m.map Prod.fst else m.map Prod.fst ++ [k] := by
  induction m with
  | nil => simp [alSet]
  | cons e t ih =>
    obtain ⟨k1, v1⟩ := e
    rw [alSet]
    by_cases h : k = k1
    · subst h
      simp
    · simp only [h, if_false, List.map_cons, ih]
      by_cases h2 : k ∈ t.map Prod.fst <;> simp [h2, h]

theorem alSet_keys_nodup {κ α : Type} [DecidableEq κ] {m : List (κ × α)} {k : κ} {v : α}
    (hm : (m.map Prod.fst).Nodup) : ((alSet m k v).map Prod.fst).Nodup := by
  rw [alSet_fst]
  by_cases h : k ∈ m.map Prod.fst
  · simpa [h]
  · simp only [h, if_false]
    rw [List.nodup_append]
    refine ⟨hm, List.nodup_singleton k, ?_⟩
    intro a ha hak
    rcases List.mem_singleton.mp hak with rfl
    exact h ha

theorem alSet_snd_forall {κ α : Type} [DecidableEq κ] {P : α → Prop} {m : List (κ × α)}
    (hm : ∀ e ∈ m, P e.2) {k : κ} {v : α} (hv : P v) :
    ∀ e ∈ alSet m k v, P e.2 := by
  induction m with
  | nil =>
    intro e he
    rw [alSet] at he
    rcases List.mem_singleton.mp he with rfl
    exact hv
  | cons f t ih =>
    obtain ⟨k1, v1⟩ := f
    intro e he
    rw [alSet] at he
    split at he
    · rcases List.mem_cons.mp he with rfl | he
      · exact hv
      · exact hm e (List.mem_cons_of_mem _ he)
    · rcases List.mem_cons.mp he with rfl | he
      · exact hm (k1, v1) (List.mem_cons_self _ _)
      · exact ih (fun f hf => hm f (List.mem_cons_of_mem _ hf)) e he

theorem alGet_eq_some_mem {κ α : Type} [DecidableEq κ] {m : List (κ × α)} {k : κ} {v : α}
    (h : alGet m k = some v) : (k, v) ∈ m := by
  induction m with
  | nil => simp [alGet] at h
  | cons f t ih =>
    obtain ⟨k1, v1⟩ := f
    rw [alGet] at h
    split at h
    case isTrue heq =>
      subst heq
      rcases Option.some_inj.mp h
      exact List.mem_cons_self _ _
    case isFalse heq =>
      exact List.mem_cons_of_mem _ (ih h)

theorem alGet_isSome_iff {κ α : Type} [DecidableEq κ] {m : List (κ × α)} {k : κ} :
    (alGet m k).isSome = true ↔ k ∈ m.map Prod.fst := by
  induction m with
  | nil => simp [alGet]
  | cons f t ih =>
    obtain ⟨k1, v1⟩ := f
    rw [alGet]
    by_cases h : k = k1 <;> simp [h, ih]

theorem rankIn_cons_self (x : String) (t : List String) : rankIn (x :: t) x = 0 := by
  rw [rankIn, if_pos rfl]

theorem rankIn_cons_ne {s x : String} (t : List String) (h : s ≠ x) :
    rankIn (x :: t) s = rankIn t s + 1 := by
  rw [rankIn, if_neg h]

theorem rankIn_pairwise (l : List String) (h : l.Nodup) :
    l.Pairwise (fun a b => rankIn l a < rankIn l b) := by
  induction l with
  | nil => exact List.Pairwise.nil
  | cons x t ih =>
    rcases List.nodup_cons.mp h with ⟨hx, ht⟩
    refine List.pairwise_cons.mpr ⟨?_, ?_⟩
    · intro b hb
      have hbx : b ≠ x := fun hbx => hx (hbx ▸ hb)
      rw [rankIn_cons_self, rankIn_cons_ne t hbx]
      exact Nat.succ_pos _
    · refine (ih ht).imp_of_mem ?_
      intro a b ha hb hab
      have hax : a ≠ x := fun k => hx (k ▸ ha)
      have hbx : b ≠ x := fun k => hx (k ▸ hb)
      rw [rankIn_cons_ne t hax, rankIn_cons_ne t hbx]
      omega

theorem fitDimension_length (e : List JSNum) : (fitDimension e).length = 768 := by
  rw [fitDimension]
  split
  case isTrue h => exact h
  case isFalse h =>
    rw [List.length_append, List.length_take, List.length_replicate]
    omega

theorem finalizeEmbedding_length (e : List JSNum) : (finalizeEmbedding e).length = 768 := by
  rw [finalizeEmbedding]
  split
  · exact List.length_replicate _ _
  · rw [List.length_map]
    exact fitDimension_length e

theorem addToIndex_vectors (w : VectorIndex) (chunks : List ChunkWithEmbedding) :
    (w.addToIndex chunks).vectors =
      w.vectors ++ chunks.filterMap (fun c => c.embedding.map finalizeEmbedding) := by
  rw [VectorIndex.addToIndex]
  have hmap :
      (chunks.filterMap (fun c => c.embedding.map (fun e => (finalizeEmbedding e, c)))).map
          Prod.fst =
        chunks.filterMap (fun c => c.embedding.map finalizeEmbedding) := by
    rw [List.map_filterMap]
    congr 1
    funext c
    cases c.embedding <;> rfl
  split
  case isTrue h =>
    rw [List.length_eq_zero] at h
    rw [← hmap, h]
    simp
  case isFalse h =>
    simpa using hmap

/-- C3 (counterexample): with the default options, `tokenize` applied to
`"the FUNCTIONS are RUNNING quickly."` does NOT return
`["function", "are", "runn", "quick"]`: the code's stopword set contains
`'are'`, so `are` is removed together with `the`. -/
theorem c3_tokenize_counterexample :
    tokenize defaultTokenizationOptions "the FUNCTIONS are RUNNING quickly." ≠
      ["function", "are", "runn", "quick"] := by
  decide

/-- C3 (amended): with the default tokenizer options, `tokenize` applied to
`"the FUNCTIONS are RUNNING quickly."` returns exactly the ordered token
list `["function", "runn", "quick"]` — both `the` and `are` are stopwords,
`functions` loses its `-s`, `running` its `-ing`, and `quickly` its
`-ly`. -/
theorem c3_tokenize_amended :
    tokenize defaultTokenizationOptions "the FUNCTIONS are RUNNING quickly." =
      ["function", "runn", "quick"] := by
  decide

/-- C6 (counterexample): handing the vector index a vector whose components
are `[NaN, 5]` does not store the finite component `5` unchanged — after
the dimension fix the whole vector is replaced by the constant vector, so
position 1 of the stored record holds `0.1`, not `5`. -/
theorem c6_nonfinite_counterexample :
    ((mkVectorIndex.addToIndex [nanChunk]).vectors.getD 0 []).getD 1 0 = 1 / 10 ∧
    (nanChunk.embedding.getD []).getD 1 JSNum.nan = JSNum.num 5 ∧
    ((1 : ℚ) / 10 ≠ 5) := by
  have hvec : (mkVectorIndex.addToIndex [nanChunk]).vectors =
      [finalizeEmbedding [JSNum.nan, JSNum.num 5]] := by
    rw [addToIndex_vectors]
    rfl
  have hfin : finalizeEmbedding [JSNum.nan, JSNum.num 5] = List.replicate 768 (1 / 10) := by
    rw [finalizeEmbedding, if_pos (by decide)]
  refine ⟨?_, by decide, by norm_num⟩
  rw [hvec, hfin]
  rfl

/-- C6 (amended): for every vector handed to the vector index's add
operation, the stored record is the dimension-fixed vector when all of its
components are finite, and the CONSTANT vector `0.1, …, 0.1` (768 copies)
as soon as ANY component is non-finite — the finite components of a vector
containing a non-finite value are not preserved. -/
theorem c6_nonfinite_amended (w : VectorIndex) (chunks : List ChunkWithEmbedding) :
    ((w.addToIndex chunks).vectors =
      w.vectors ++ chunks.filterMap (fun c => c.embedding.map finalizeEmbedding)) ∧
    (∀ e : List JSNum,
      ((fitDimension e).any (fun x => !x.isFinite) = true →
        finalizeEmbedding e = List.replicate 768 (1 / 10)) ∧
      ((fitDimension e).any (fun x => !x.isFinite) = false →
        finalizeEmbedding e = (fitDimension e).map JSNum.toRat)) := by
  refine ⟨addToIndex_vectors w chunks, ?_⟩
  intro e
  constructor
  · intro h
    rw [finalizeEmbedding, if_pos h]
  · intro h
    rw [finalizeEmbedding, if_neg (by rw [h]; exact Bool.false_ne_true)]

/-- C7 (counterexample): a service response consisting of the single value
`NaN` is right-padded to length 768, but the non-finite value is NOT
replaced with `0.1`: it survives at position 0 of the returned vector, so
the returned vector is not all-finite. -/
theorem c7_embedding_counterexample :
    (generateEmbeddingFromOutput (.service [JSNum.nan])).getD 0 (JSNum.num 0) = JSNum.nan ∧
    JSNum.nan.isFinite = false ∧
    (generateEmbeddingFromOutput (.service [JSNum.nan])).length = 768 := by
  have h : generateEmbeddingFromOutput (.service [JSNum.nan]) =
      JSNum.nan :: List.replicate 767 (JSNum.num (1 / 10)) := by
    rw [generateEmbeddingFromOutput, if_pos (by norm_num)]
    rfl
  refine ⟨by rw [h]; rfl, rfl, ?_⟩
  rw [h, List.length_cons, List.length_replicate]

/-- C7 (amended): for every service response, `generateEmbedding` returns a
vector of exactly 768 entries — a shorter response is right-padded with
`0.1` and a longer one truncated, with the response values (finite or not)
kept unchanged in place; only a thrown embedder error is replaced by the
all-`0.1` fallback vector.  No finiteness replacement happens on the
response path. -/
theorem c7_embedding_amended (vals : List JSNum) (msg : String) :
    (generateEmbeddingFromOutput (.service vals) =
      vals.take 768 ++ List.replicate (768 - vals.length) (JSNum.num (1 / 10))) ∧
    (generateEmbeddingFromOutput (.service vals)).length = 768 ∧
    generateEmbeddingFromOutput (.failure msg) = List.replicate 768 (JSNum.num (1 / 10)) := by
  have hmain :
      generateEmbeddingFromOutput (.service vals) =
        vals.take 768 ++ List.replicate (768 - vals.length) (JSNum.num (1 / 10)) := by
    rw [generateEmbeddingFromOutput]
    rcases lt_trichotomy vals.length 768 with h | h | h
    · rw [if_pos h, List.take_of_length_le (le_of_lt h)]
    · rw [if_neg (by omega), if_neg (by omega), List.take_of_length_le (le_of_eq h),
        h, Nat.sub_self, List.replicate_zero, List.append_nil]
    · rw [if_neg (by omega), if_pos h, Nat.sub_eq_zero_of_le (le_of_lt h),
        List.replicate_zero, List.append_nil]
  refine ⟨hmain, ?_, rfl⟩
  rw [hmain, List.length_append, List.length_take, List.length_replicate]
  omega

/-- C8: after any sequence of add operations, every record stored in the
vector index has exactly 768 components — an input of a different length is
padded/truncated to 768 (and a non-finite one replaced by the constant
vector, also of length 768), so a mis-sized record is never stored. -/
theorem c8_dimension_invariant (w : VectorIndex) (chunks : List ChunkWithEmbedding)
    (hw : ∀ v ∈ w.vectors, v.length = 768) :
    ∀ v ∈ (w.addToIndex chunks).vectors, v.length = 768 := by
  intro v hv
  rw [addToIndex_vectors] at hv
  rcases List.mem_append.mp hv with hv | hv
  · exact hw v hv
  · rcases List.mem_filterMap.mp hv with ⟨c, _, hc⟩
    rcases Option.map_eq_some'.mp hc with ⟨e, _, hev⟩
    rw [← hev]
    exact finalizeEmbedding_length e

/-- C8 (witness): adding the 3-component embedding chunk to the empty
index stores its finalised record, and that record has exactly 768
components. -/
theorem c8_dimension_invariant_witness :
    (finalizeEmbedding [JSNum.num 1, JSNum.num 2, JSNum.num 3]).length = 768 := by
  refine c8_dimension_invariant mkVectorIndex [smallChunk]
    (fun v hv => absurd hv (List.not_mem_nil v)) _ ?_
  rw [addToIndex_vectors]
  show finalizeEmbedding [JSNum.num 1, JSNum.num 2, JSNum.num 3] ∈
    [] ++ [finalizeEmbedding [JSNum.num 1, JSNum.num 2, JSNum.num 3]]
  exact List.mem_singleton.mpr rfl

/-- C9: `addDocument` is idempotent per chunk id — adding a document whose
id is already present in `documentMetadata` leaves the whole index state
(documents, postings, vocabulary, document lengths, average document
length, document count) exactly unchanged. -/
theorem c9_addDocument_idempotent (idx : BM25Index ℝ) (d : BM25Document)
    (h : (alGet idx.documentMetadata d.id).isSome = true) :
    idx.addDocument d = idx := by
  rw [BM25Index.addDocument, if_pos h]

/-- C9 (witness): adding `alphaDoc` twice equals adding it once. -/
theorem c9_addDocument_idempotent_witness :
    ((mkBM25Index ℝ).addDocument alphaDoc).addDocument alphaDoc =
      (mkBM25Index ℝ).addDocument alphaDoc := by
  refine c9_addDocument_idempotent _ _ ?_
  rw [BM25Index.addDocument]
  rw [if_neg (by rw [mkBM25Index]; decide)]
  simp [alphaDoc, mkBM25Index, alSet, alGet]

theorem alGet_none_alSet {κ α : Type} [DecidableEq κ] {m : List (κ × α)} {k : κ}
    (h : alGet m k = none) (v : α) : alSet m k v = m ++ [(k, v)] := by
  induction m with
  | nil => rfl
  | cons e t ih =>
    obtain ⟨k1, v1⟩ := e
    rw [alGet] at h
    rw [alSet]
    split
    case isTrue heq => rw [if_pos heq] at h; exact absurd h (by simp)
    case isFalse heq =>
      rw [if_neg heq] at h
      rw [ih h]
      rfl

theorem alGet_some_decomp {κ α : Type} [DecidableEq κ] {m : List (κ × α)} {k : κ} {g : α}
    (h : alGet m k = some g) :
    ∃ m1 m2, m = m1 ++ (k, g) :: m2 ∧ k ∉ m1.map Prod.fst ∧
      ∀ v, alSet m k v = m1 ++ (k, v) :: m2 := by
  induction m with
  | nil => simp [alGet] at h
  | cons e t ih =>
    obtain ⟨k1, v1⟩ := e
    rw [alGet] at h
    by_cases heq : k = k1
    · rw [if_pos heq] at h
      rcases Option.some_inj.mp h
      subst heq
      refine ⟨[], t, rfl, by simp, ?_⟩
      intro v
      rw [alSet, if_pos rfl]
      rfl
    · rw [if_neg heq] at h
      rcases ih h with ⟨m1, m2, hm, hk, hset⟩
      refine ⟨(k1, v1) :: m1, m2, by rw [hm]; rfl, ?_, ?_⟩
      · simp only [List.map_cons, List.mem_cons]
        rintro (h1 | h1)
        · exact heq h1
        · exact hk h1
      · intro v
        rw [alSet, if_neg heq, hset v]
        rfl

theorem mem_alSet {κ α : Type} [DecidableEq κ] {m : List (κ × α)} {k : κ} {v : α} {e : κ × α}
    (he : e ∈ alSet m k v) : e = (k, v) ∨ e ∈ m := by
  rcases h : alGet m k with _ | g
  · rw [alGet_none_alSet h] at he
    rcases List.mem_append.mp he with h1 | h1
    · exact Or.inr h1
    · exact Or.inl (List.mem_singleton.mp h1)
  · rcases alGet_some_decomp h with ⟨m1, m2, hm, _, hset⟩
    rw [hset v] at he
    rcases List.mem_append.mp he with h1 | h1
    · exact Or.inr (by rw [hm]; exact List.mem_append.mpr (Or.inl h1))
    · rcases List.mem_cons.mp h1 with h2 | h2
      · exact Or.inl h2
      · exact Or.inr (by rw [hm]; exact List.mem_append.mpr (Or.inr (List.mem_cons_of_mem _ h2)))

theorem alGet_alSet_self {κ α : Type} [DecidableEq κ] (m : List (κ × α)) (k : κ) (v : α) :
    alGet (alSet m k v) k = some v := by
  induction m with
  | nil => rw [alSet, alGet, if_pos rfl]
  | cons e t ih =>
    obtain ⟨k1, v1⟩ := e
    rw [alSet]
    split
    case isTrue heq => rw [alGet, if_pos rfl]
    case isFalse heq => rw [alGet, if_neg heq]; exact ih

theorem alGet_alSet_ne {κ α : Type} [DecidableEq κ] (m : List (κ × α)) {k k2 : κ} (v : α)
    (h : k2 ≠ k) : alGet (alSet m k v) k2 = alGet m k2 := by
  induction m with
  | nil => simp [alSet, alGet, h]
  | cons e t ih =>
    obtain ⟨k1, v1⟩ := e
    rw [alSet]
    split
    case isTrue heq =>
      subst heq
      rw [alGet, alGet, if_neg h, if_neg h]
    case isFalse heq =>
      by_cases h2 : k2 = k1
      · rw [alGet, if_pos h2, alGet, if_pos h2]
      · rw [alGet, if_neg h2, alGet, if_neg h2]
        exact ih

/-- C2 (counterexample): `retrieveRelevantFiles` CAN raise.  In an
environment where initialisation succeeds with non-empty indices and the
hybrid search throws (the embedder being unavailable), the outer catch
wraps the error and re-throws it instead of returning an empty result. -/
theorem c2_retrieve_counterexample :
    mergeDemoVectorIndex.size = 1 ∧
    mergeDemoBM25Index.documentCount = 1 ∧
    retrieveRelevantFiles retrieveEnvSearchFails =
      .error "Failed to retrieve relevant files: embedder unavailable" := by
  refine ⟨rfl, rfl, ?_⟩
  rfl

/-- C2 (amended): `retrieveRelevantFiles` converts auto-indexing failures
(and the still-empty-after-indexing case) into the empty result, but an
initialisation error or an error of the hybrid search itself is wrapped in
`Failed to retrieve relevant files: …` and re-thrown to the caller — the
function does not have the claimed never-raises property. -/
theorem c2_retrieve_amended (env : RetrieveEnv ℝ) :
    (∀ e, env.initRag = .error e →
      retrieveRelevantFiles env = .error ("Failed to retrieve relevant files: " ++ e)) ∧
    (∀ vi bi, env.initRag = .ok (vi, bi) → (vi.size = 0 ∨ bi.documentCount = 0) →
      (∀ e, env.autoIndex = .error e →
        retrieveRelevantFiles env = .ok (emptyRetrieveResult ℝ)) ∧
      (∀ vi2 bi2, env.autoIndex = .ok (vi2, bi2) → vi2.size = 0 →
        retrieveRelevantFiles env = .ok (emptyRetrieveResult ℝ))) ∧
    (∀ vi bi, env.initRag = .ok (vi, bi) → ¬(vi.size = 0 ∨ bi.documentCount = 0) →
      ∀ e, env.searchOutcome = .error e →
        retrieveRelevantFiles env = .error ("Failed to retrieve relevant files: " ++ e)) ∧
    (∀ vi bi, env.initRag = .ok (vi, bi) → ¬(vi.size = 0 ∨ bi.documentCount = 0) →
      ∀ rs, env.searchOutcome = .ok rs →
        retrieveRelevantFiles env = .ok
          { results := rs, groupedResults := groupResultsByFile rs,
            rootCauseFile :=
              if 0 < rs.length then identifyRootCauseFile rs env.mentionedFiles
              else none }) := by
  refine ⟨?_, ?_, ?_, ?_⟩
  · intro e he
    simp only [retrieveRelevantFiles, retrieveBody, he]
  · intro vi bi hinit hempty
    constructor
    · intro e hauto
      simp only [retrieveRelevantFiles, retrieveBody, hinit]
      rw [if_pos hempty]
      simp only [hauto]
    · intro vi2 bi2 hauto hsz
      simp only [retrieveRelevantFiles, retrieveBody, hinit]
      rw [if_pos hempty]
      simp only [hauto]
      rw [if_pos hsz]
  · intro vi bi hinit hne e hsearch
    simp only [retrieveRelevantFiles, retrieveBody, hinit]
    rw [if_neg hne]
    simp only [retrieveSearchPhase, hsearch]
  · intro vi bi hinit hne rs hsearch
    simp only [retrieveRelevantFiles, retrieveBody, hinit]
    rw [if_neg hne]
    simp only [retrieveSearchPhase, hsearch]

/-- C2 (witness): concrete instances of the amended behaviour — the
auto-indexing failure is swallowed into an empty result, while the search
failure is wrapped and re-thrown. -/
theorem c2_retrieve_amended_witness :
    retrieveRelevantFiles retrieveEnvAutoIndexFails = .ok (emptyRetrieveResult ℝ) ∧
    retrieveRelevantFiles retrieveEnvSearchFails =
      .error "Failed to retrieve relevant files: embedder unavailable" := by
  constructor
  · exact ((c2_retrieve_amended retrieveEnvAutoIndexFails).2.1 mkVectorIndex (mkBM25Index ℝ)
      rfl (Or.inl rfl)).1 "no files" rfl
  · exact (c2_retrieve_amended retrieveEnvSearchFails).2.2.1 mergeDemoVectorIndex
      mergeDemoBM25Index rfl (by rw [not_or]; exact ⟨by decide, by decide⟩)
      "embedder unavailable" rfl

theorem groupStep_dropped {K : Type} [LinearOrderedField K]
    (m : List (String × GroupedSearchResult K)) (r : SearchResult K)
    (h : r.metadata = none ∨ ∃ md, r.metadata = some md ∧ md.filePath = "") :
    groupStep m r = m := by
  rcases h with h | ⟨md, hmd, hfp⟩
  · rw [groupStep, h]
  · rw [groupStep, hmd]
    simp [hfp]

theorem groupStep_kept {K : Type} [LinearOrderedField K]
    (m : List (String × GroupedSearchResult K)) (r : SearchResult K) (md : SearchResultMetadata)
    (hmd : r.metadata = some md) (hfp : md.filePath ≠ "") :
    groupStep m r =
      alSet m md.filePath
        { (alGet m md.filePath).getD
            { filePath := md.filePath, fileName := md.fileName, chunks := [],
              maxScore := 0, totalScore := 0 } with
          chunks := ((alGet m md.filePath).getD
            { filePath := md.filePath, fileName := md.fileName, chunks := [],
              maxScore := 0, totalScore := 0 }).chunks ++ [r],
          totalScore := ((alGet m md.filePath).getD
            { filePath := md.filePath, fileName := md.fileName, chunks := [],
              maxScore := 0, totalScore := 0 }).totalScore + r.combinedScore,
          maxScore := max (((alGet m md.filePath).getD
            { filePath := md.filePath, fileName := md.fileName, chunks := [],
              maxScore := 0, totalScore := 0 }).maxScore) r.combinedScore } := by
  rw [groupStep, hmd]
  simp [hfp]


theorem keptResult_iff {K : Type} (r : SearchResult K) :
    keptResult r = true ↔ ∃ md, r.metadata = some md ∧ md.filePath ≠ "" := by
  rw [keptResult]
  rcases hmd : r.metadata with _ | md
  · simp
  · simp [hmd]

theorem groupStep_wf {K : Type} [LinearOrderedField K]
    {m : List (String × GroupedSearchResult K)} (hm : GroupMapWF m) (r : SearchResult K) :
    GroupMapWF (groupStep m r) := by
  by_cases hk : r.metadata = none ∨ ∃ md, r.metadata = some md ∧ md.filePath = ""
  · rw [groupStep_dropped m r hk]
    exact hm
  · push_neg at hk
    rcases Option.ne_none_iff_exists'.mp hk.1 with ⟨md, hmd⟩
    have hfp : md.filePath ≠ "" := hk.2 md hmd
    rw [groupStep_kept m r md hmd hfp]
    obtain ⟨W1, W2, W3, W4⟩ := hm
    have hg0 : ((alGet m md.filePath).getD
        { filePath := md.filePath, fileName := md.fileName, chunks := [],
          maxScore := 0, totalScore := 0 }).filePath = md.filePath ∧
        (∀ x ∈ ((alGet m md.filePath).getD
          { filePath := md.filePath, fileName := md.fileName, chunks := [],
            maxScore := 0, totalScore := 0 }).chunks,
          ∃ md2, x.metadata = some md2 ∧ md2.filePath = md.filePath) ∧
        ((alGet m md.filePath).getD
          { filePath := md.filePath, fileName := md.fileName, chunks := [],
            maxScore := 0, totalScore := 0 }).totalScore =
          (((alGet m md.filePath).getD
            { filePath := md.filePath, fileName := md.fileName, chunks := [],
              maxScore := 0, totalScore := 0 }).chunks.map
            (fun c => c.combinedScore)).sum ∧
        ((alGet m md.filePath).getD
          { filePath := md.filePath, fileName := md.fileName, chunks := [],
            maxScore := 0, totalScore := 0 }).maxScore =
          (((alGet m md.filePath).getD
            { filePath := md.filePath, fileName := md.fileName, chunks := [],
              maxScore := 0, totalScore := 0 }).chunks.map
            (fun c => c.combinedScore)).foldl max 0 := by
      rcases hget : alGet m md.filePath with _ | g
      · simp [hget]
      · have hmem := alGet_eq_some_mem hget
        have h1 := W1 _ hmem
        have h2 := W2 _ hmem
        have h3 := W3 _ hmem
        simp only [hget, Option.getD_some]
        exact ⟨h1.1, h2, h3.1, h3.2⟩
    obtain ⟨hg0p, hg0c, hg0t, hg0m⟩ := hg0
    refine ⟨?_, ?_, ?_, alSet_keys_nodup W4⟩
    · intro e he
      rcases mem_alSet he with rfl | he2
      · exact ⟨hg0p, hfp⟩
      · exact W1 e he2
    · intro e he x hx
      rcases mem_alSet he with rfl | he2
      · simp only at hx
        rcases List.mem_append.mp hx with hx | hx
        · exact hg0c x hx
        · rcases List.mem_singleton.mp hx with rfl
          exact ⟨md, hmd, rfl⟩
      · exact W2 e he2 x hx
    · intro e he
      rcases mem_alSet he with rfl | he2
      · constructor
        · simp only [List.map_append, List.sum_append, hg0t]
          simp
        · simp only [List.map_append, List.foldl_append, hg0m]
          simp
      · exact W3 e he2

theorem foldl_groupStep_wf {K : Type} [LinearOrderedField K]
    (rs : List (SearchResult K)) (m : List (String × GroupedSearchResult K))
    (hm : GroupMapWF m) : GroupMapWF (rs.foldl groupStep m) := by
  induction rs generalizing m with
  | nil => exact hm
  | cons r t ih => exact ih (groupStep m r) (groupStep_wf hm r)

theorem groupStep_count {K : Type} [LinearOrderedField K]
    (m : List (String × GroupedSearchResult K)) (r : SearchResult K) :
    ((groupStep m r).map (fun e => e.2.chunks.length)).sum =
      (m.map (fun e => e.2.chunks.length)).sum + (if keptResult r then 1 else 0) := by
  by_cases hk : keptResult r = true
  · rcases (keptResult_iff r).mp hk with ⟨md, hmd, hfp⟩
    rw [groupStep_kept m r md hmd hfp, if_pos hk]
    rcases hget : alGet m md.filePath with _ | g
    · rw [alGet_none_alSet hget]
      simp [hget]
    · rcases alGet_some_decomp hget with ⟨m1, m2, hm, _, hset⟩
      rw [hset, hm]
      simp only [hget, Option.getD_some, List.map_append, List.sum_append, List.map_cons,
        List.sum_cons, List.length_append, List.length_singleton]
      omega
  · rw [if_neg hk]
    have hd : r.metadata = none ∨ ∃ md, r.metadata = some md ∧ md.filePath = "" := by
      rcases hmd : r.metadata with _ | md
      · exact Or.inl rfl
      · right
        refine ⟨md, rfl, ?_⟩
        by_contra hne
        exact hk ((keptResult_iff r).mpr ⟨md, hmd, hne⟩)
    rw [groupStep_dropped m r hd]
    simp

theorem foldl_groupStep_count {K : Type} [LinearOrderedField K]
    (rs : List (SearchResult K)) (m : List (String × GroupedSearchResult K)) :
    ((rs.foldl groupStep m).map (fun e => e.2.chunks.length)).sum =
      (m.map (fun e => e.2.chunks.length)).sum + (rs.filter keptResult).length := by
  induction rs generalizing m with
  | nil => simp
  | cons r t ih =>
    rw [List.foldl_cons, ih (groupStep m r), groupStep_count m r]
    by_cases hk : keptResult r = true
    · rw [if_pos hk, List.filter_cons_of_pos hk, List.length_cons]
      omega
    · rw [if_neg hk, List.filter_cons_of_neg (by simpa using hk)]
      omega

theorem groupStep_adds_self {K : Type} [LinearOrderedField K]
    (m : List (String × GroupedSearchResult K)) (r : SearchResult K) (md : SearchResultMetadata)
    (hmd : r.metadata = some md) (hfp : md.filePath ≠ "") :
    ∃ g, alGet (groupStep m r) md.filePath = some g ∧ r ∈ g.chunks := by
  rw [groupStep_kept m r md hmd hfp]
  refine ⟨_, alGet_alSet_self _ _ _, ?_⟩
  simp

theorem groupStep_chunks_mono {K : Type} [LinearOrderedField K]
    (m : List (String × GroupedSearchResult K)) (r x : SearchResult K) (fp : String)
    (h : ∃ g, alGet m fp = some g ∧ x ∈ g.chunks) :
    ∃ g, alGet (groupStep m r) fp = some g ∧ x ∈ g.chunks := by
  rcases h with ⟨g, hget, hx⟩
  by_cases hk : r.metadata = none ∨ ∃ md, r.metadata = some md ∧ md.filePath = ""
  · rw [groupStep_dropped m r hk]
    exact ⟨g, hget, hx⟩
  · push_neg at hk
    rcases Option.ne_none_iff_exists'.mp hk.1 with ⟨md, hmd⟩
    have hfp : md.filePath ≠ "" := hk.2 md hmd
    rw [groupStep_kept m r md hmd hfp]
    by_cases heq : fp = md.filePath
    · subst heq
      refine ⟨_, alGet_alSet_self _ _ _, ?_⟩
      simp only [hget, Option.getD_some]
      exact List.mem_append.mpr (Or.inl hx)
    · rw [alGet_alSet_ne _ _ heq]
      exact ⟨g, hget, hx⟩

theorem foldl_groupStep_chunks_mono {K : Type} [LinearOrderedField K]
    (rs : List (SearchResult K)) (m : List (String × GroupedSearchResult K))
    (x : SearchResult K) (fp : String)
    (h : ∃ g, alGet m fp = some g ∧ x ∈ g.chunks) :
    ∃ g, alGet (rs.foldl groupStep m) fp = some g ∧ x ∈ g.chunks := by
  induction rs generalizing m with
  | nil => exact h
  | cons r t ih => exact ih (groupStep m r) (groupStep_chunks_mono m r x fp h)

theorem foldl_groupStep_mem {K : Type} [LinearOrderedField K]
    (rs : List (SearchResult K)) (m : List (String × GroupedSearchResult K))
    (r : SearchResult K) (md : SearchResultMetadata)
    (hr : r ∈ rs) (hmd : r.metadata = some md) (hfp : md.filePath ≠ "") :
    ∃ g, alGet (rs.foldl groupStep m) md.filePath = some g ∧ r ∈ g.chunks := by
  induction rs generalizing m with
  | nil => cases hr
  | cons a t ih =>
    rcases List.mem_cons.mp hr with rfl | hr2
    · exact foldl_groupStep_chunks_mono t (groupStep m r) r md.filePath
        (groupStep_adds_self m r md hmd hfp)
    · exact ih (groupStep m a) hr2

/-- C10 (counterexample): `group_by_file` does NOT always set a group's
`max_score` to the maximum of its chunks' combined scores — the running
maximum starts at `0`, so a single chunk with combined score `-1` yields a
group whose `max_score` is `0`, not `-1`. -/
theorem c10_group_counterexample :
    (groupResultsByFile [negativeScoreResult]).map (fun g => g.maxScore) = [0] ∧
    (groupResultsByFile [negativeScoreResult]).map
      (fun g => g.chunks.map (fun c => c.combinedScore)) = [[-1]] ∧
    ((0 : ℝ) ≠ -1) := by
  have h : groupResultsByFile [negativeScoreResult] =
      [{ filePath := "/tmp/a.ts", fileName := "a.ts", chunks := [negativeScoreResult],
         maxScore := max 0 (-1), totalScore := 0 + (-1) }] := by
    rw [groupResultsByFile]
    rfl
  rw [h]
  refine ⟨?_, ?_, by norm_num⟩
  · simp only [List.map_cons, List.map_nil]
    rw [max_eq_left (by norm_num)]
  · simp [negativeScoreResult]

/-- C10 (amended): `group_by_file` silently drops every result without
metadata or with an empty `file_path` (such results appear in no group, so
the total chunk count across groups equals the number of KEPT results and
can be strictly smaller than the input count); every remaining result is
placed in exactly one group — the group keyed by its `file_path` (group
file paths are pairwise distinct and every chunk of a group carries the
group's path) — and each group's `total_score` is the sum of its chunks'
combined scores while `max_score` is the maximum of `0` and its chunks'
combined scores (the floor at `0` is the only deviation from the claim). -/
theorem c10_group_amended (results : List (SearchResult ℝ)) :
    (∀ r ∈ results, (r.metadata = none ∨ ∃ md, r.metadata = some md ∧ md.filePath = "") →
      ∀ g ∈ groupResultsByFile results, r ∉ g.chunks) ∧
    (∀ r ∈ results, ∀ md, r.metadata = some md → md.filePath ≠ "" →
      ∃ g ∈ groupResultsByFile results, r ∈ g.chunks ∧ g.filePath = md.filePath) ∧
    (∀ g ∈ groupResultsByFile results, ∀ x ∈ g.chunks,
      ∃ md, x.metadata = some md ∧ md.filePath = g.filePath) ∧
    ((groupResultsByFile results).map (fun g => g.filePath)).Nodup ∧
    (((groupResultsByFile results).map (fun g => g.chunks.length)).sum =
      (results.filter keptResult).length) ∧
    (∀ g ∈ groupResultsByFile results,
      g.totalScore = (g.chunks.map (fun c => c.combinedScore)).sum ∧
      g.maxScore = (g.chunks.map (fun c => c.combinedScore)).foldl max 0) := by
  have hwf : GroupMapWF (results.foldl groupStep
      ([] : List (String × GroupedSearchResult ℝ))) :=
    foldl_groupStep_wf results [] ⟨by simp, by simp, by simp, by simp⟩
  obtain ⟨W1, W2, W3, W4⟩ := hwf
  have hmemg : ∀ g, g ∈ groupResultsByFile results ↔
      ∃ e ∈ results.foldl groupStep [], e.2 = g := by
    intro g
    rw [groupResultsByFile, mem_sortDescBy, List.mem_map]
  refine ⟨?_, ?_, ?_, ?_, ?_, ?_⟩
  · intro r _ hdrop g hg hrg
    rcases (hmemg g).mp hg with ⟨e, he, rfl⟩
    rcases W2 e he r hrg with ⟨md2, hmd2, hfp2⟩
    rcases hdrop with hnone | ⟨md, hmd, hfp⟩
    · rw [hnone] at hmd2
      cases hmd2
    · rw [hmd] at hmd2
      rcases Option.some_inj.mp hmd2 with rfl
      exact (W1 e he).2 (hfp2 ▸ hfp)
  · intro r hr md hmd hfp
    rcases foldl_groupStep_mem results [] r md hr hmd hfp with ⟨g, hget, hrg⟩
    have he := alGet_eq_some_mem hget
    refine ⟨g, (hmemg g).mpr ⟨(md.filePath, g), he, rfl⟩, hrg, ?_⟩
    exact (W1 (md.filePath, g) he).1
  · intro g hg x hx
    rcases (hmemg g).mp hg with ⟨e, he, rfl⟩
    rcases W2 e he x hx with ⟨md, hmd, hfp⟩
    exact ⟨md, hmd, by rw [hfp, (W1 e he).1]⟩
  · have hperm : List.Perm
        ((groupResultsByFile results).map (fun g => g.filePath))
        (((results.foldl groupStep []).map (fun e => e.2)).map (fun g => g.filePath)) :=
      (sortDescBy_perm _ _).map _
    rw [hperm.nodup_iff, List.map_map]
    have hcongr : (results.foldl groupStep []).map ((fun g => g.filePath) ∘ (fun e => e.2)) =
        (results.foldl groupStep []).map Prod.fst :=
      List.map_congr_left (fun e he => (W1 e he).1)
    rw [hcongr]
    exact W4
  · have hperm : List.Perm
        ((groupResultsByFile results).map (fun g => g.chunks.length))
        (((results.foldl groupStep []).map (fun e => e.2)).map (fun g => g.chunks.length)) :=
      (sortDescBy_perm _ _).map _
    rw [hperm.sum_eq, List.map_map]
    have h := foldl_groupStep_count results ([] : List (String × GroupedSearchResult ℝ))
    simpa using h
  · intro g hg
    rcases (hmemg g).mp hg with ⟨e, he, rfl⟩
    exact W3 e he

/-- C10 (witness): a concrete instance of the amended statement — the
single kept result with combined score `-1` lands in exactly one group. -/
theorem c10_group_amended_witness :
    ∃ g ∈ groupResultsByFile [negativeScoreResult],
      negativeScoreResult ∈ g.chunks ∧ g.filePath = "/tmp/a.ts" :=
  (c10_group_amended [negativeScoreResult]).2.1 negativeScoreResult
    (List.mem_singleton.mpr rfl)
    { filePath := "/tmp/a.ts", fileName := "a.ts", startLine := 1, endLine := 2,
      fileExt := ".ts", hasImports := false }
    rfl (by decide)

theorem l2distSq_self (v : List ℚ) : l2distSq v v = 0 := by
  rw [l2distSq]
  have h : ∀ (w : List ℚ) (acc : ℚ),
      (w.zip w).foldl (fun acc p => acc + (p.1 - p.2) * (p.1 - p.2)) acc = acc := by
    intro w
    induction w with
    | nil => intro acc; rfl
    | cons x t ih =>
      intro acc
      rw [List.zip_cons_cons, List.foldl_cons]
      rw [show acc + (x - x) * (x - x) = acc by ring]
      exact ih acc
  exact h v 0

set_option maxRecDepth 40000 in
theorem mergeDemoVectorIndex_eq :
    mergeDemoVectorIndex.vectors = [List.replicate 768 (0 : ℚ)] ∧
    mergeDemoVectorIndex.size = 1 ∧
    mergeDemoVectorIndex.idToMetadata = [(0, chunkStoredMetadata sharedChunk)] := by
  refine ⟨?_, rfl, rfl⟩
  rw [mergeDemoVectorIndex, addToIndex_vectors]
  have h : finalizeEmbedding (List.replicate 768 (JSNum.num 0)) = List.replicate 768 (0 : ℚ) := by
    rw [finalizeEmbedding, fitDimension, if_pos (List.length_replicate _ _),
      if_neg (by decide), List.map_replicate]
    rfl
  have h2 : ([sharedChunk].filterMap (fun c => c.embedding.map finalizeEmbedding)) =
      [finalizeEmbedding (List.replicate 768 (JSNum.num 0))] := rfl
  rw [h2, h]
  rfl

set_option maxRecDepth 40000 in
theorem mergeDemoVector_search :
    mergeDemoVectorIndex.searchIndex zeroQueryVec 1 =
      [{ id := 0, score := 1, distance := 0, metadata := chunkStoredMetadata sharedChunk }] := by
  obtain ⟨hvec, hsize, hmeta⟩ := mergeDemoVectorIndex_eq
  have hzq : l2distSq (List.replicate 768 (0 : ℚ)) zeroQueryVec = 0 :=
    l2distSq_self (List.replicate 768 (0 : ℚ))
  have h1 : mergeDemoVectorIndex.searchIndex zeroQueryVec 1 =
      sortDescBy (fun r => r.score)
        [{ id := 0, score := max 0 (1 - l2distSq (List.replicate 768 (0 : ℚ)) zeroQueryVec / 100),
           distance := l2distSq (List.replicate 768 (0 : ℚ)) zeroQueryVec,
           metadata := chunkStoredMetadata sharedChunk }] := by
    rw [VectorIndex.searchIndex, hvec, hsize, hmeta]
    rfl
  rw [h1, hzq]
  have hscore : max (0 : ℚ) (1 - 0 / 100) = 1 := by norm_num
  rw [hscore]
  rfl

theorem mergeStepBM25_inv {K : Type} [LinearOrderedField K]
    {m : List (String × SearchResult K)}
    (hm : ∀ e ∈ m, e.2.id = e.1 ∧ e.2.vectorScore = 0) (r : BM25SearchResult K) :
    ∀ e ∈ mergeStepBM25 m r, e.2.id = e.1 ∧ e.2.vectorScore = 0 := by
  intro e he
  rw [mergeStepBM25] at he
  rcases mem_alSet he with rfl | he2
  · rcases hget : alGet m r.id with _ | g
    · simp [hget]
    · have h := hm _ (alGet_eq_some_mem hget)
      simp only [hget, Option.getD_some]
      exact ⟨h.1, h.2⟩
  · exact hm e he2

theorem bm25Fold_inv {K : Type} [LinearOrderedField K]
    (brs : List (BM25SearchResult K)) (m : List (String × SearchResult K))
    (hm : ∀ e ∈ m, e.2.id = e.1 ∧ e.2.vectorScore = 0) :
    ∀ e ∈ brs.foldl mergeStepBM25 m, e.2.id = e.1 ∧ e.2.vectorScore = 0 := by
  induction brs generalizing m with
  | nil => exact hm
  | cons r t ih => exact ih (mergeStepBM25 m r) (mergeStepBM25_inv hm r)

theorem mergeStepVector_id {K : Type} [LinearOrderedField K]
    {m : List (String × SearchResult K)}
    (hm : ∀ e ∈ m, e.2.id = e.1) (r : VectorSearchResult) :
    ∀ e ∈ mergeStepVector m r, e.2.id = e.1 := by
  intro e he
  rw [mergeStepVector] at he
  rcases mem_alSet he with rfl | he2
  · rcases hget : alGet m (toString r.id) with _ | g
    · simp [hget]
    · have h := hm _ (alGet_eq_some_mem hget)
      simp only [hget, Option.getD_some]
      exact h
  · exact hm e he2

theorem vectorFold_id {K : Type} [LinearOrderedField K]
    (vrs : List VectorSearchResult) (m : List (String × SearchResult K))
    (hm : ∀ e ∈ m, e.2.id = e.1) :
    ∀ e ∈ vrs.foldl mergeStepVector m, e.2.id = e.1 := by
  induction vrs generalizing m with
  | nil => exact hm
  | cons r t ih => exact ih (mergeStepVector m r) (mergeStepVector_id hm r)

theorem mergeStepBM25_get_mono {K : Type} [LinearOrderedField K]
    (m : List (String × SearchResult K)) (r : BM25SearchResult K) {k : String}
    (h : (alGet m k).isSome = true) : (alGet (mergeStepBM25 m r) k).isSome = true := by
  rw [mergeStepBM25]
  by_cases heq : k = r.id
  · subst heq
    rw [alGet_alSet_self]
    rfl
  · rw [alGet_alSet_ne _ _ heq]
    exact h

theorem mergeStepVector_get_mono {K : Type} [LinearOrderedField K]
    (m : List (String × SearchResult K)) (r : VectorSearchResult) {k : String}
    (h : (alGet m k).isSome = true) : (alGet (mergeStepVector m r) k).isSome = true := by
  rw [mergeStepVector]
  by_cases heq : k = toString r.id
  · subst heq
    rw [alGet_alSet_self]
    rfl
  · rw [alGet_alSet_ne _ _ heq]
    exact h

theorem bm25Fold_get_mono {K : Type} [LinearOrderedField K]
    (brs : List (BM25SearchResult K)) (m : List (String × SearchResult K)) {k : String}
    (h : (alGet m k).isSome = true) :
    (alGet (brs.foldl mergeStepBM25 m) k).isSome = true := by
  induction brs generalizing m with
  | nil => exact h
  | cons r t ih => exact ih (mergeStepBM25 m r) (mergeStepBM25_get_mono m r h)

theorem vectorFold_get_mono {K : Type} [LinearOrderedField K]
    (vrs : List VectorSearchResult) (m : List (String × SearchResult K)) {k : String}
    (h : (alGet m k).isSome = true) :
    (alGet (vrs.foldl mergeStepVector m) k).isSome = true := by
  induction vrs generalizing m with
  | nil => exact h
  | cons r t ih => exact ih (mergeStepVector m r) (mergeStepVector_get_mono m r h)

theorem bm25Fold_key_present {K : Type} [LinearOrderedField K]
    (brs : List (BM25SearchResult K)) (m : List (String × SearchResult K)) :
    ∀ b ∈ brs, (alGet (brs.foldl mergeStepBM25 m) b.id).isSome = true := by
  induction brs generalizing m with
  | nil => intro b hb; cases hb
  | cons r t ih =>
    intro b hb
    rcases List.mem_cons.mp hb with rfl | hb2
    · refine bm25Fold_get_mono t (mergeStepBM25 m b) ?_
      rw [mergeStepBM25, alGet_alSet_self]
      rfl
    · exact ih (mergeStepBM25 m r) b hb2

theorem vectorFold_key_present {K : Type} [LinearOrderedField K]
    (vrs : List VectorSearchResult) (m : List (String × SearchResult K)) :
    ∀ v ∈ vrs, (alGet (vrs.foldl mergeStepVector m) (toString v.id)).isSome = true := by
  induction vrs generalizing m with
  | nil => intro v hv; cases hv
  | cons r t ih =>
    intro v hv
    rcases List.mem_cons.mp hv with rfl | hv2
    · refine vectorFold_get_mono t (mergeStepVector m v) ?_
      rw [mergeStepVector, alGet_alSet_self]
      rfl
    · exact ih (mergeStepVector m r) v hv2

theorem vectorFold_get_stable {K : Type} [LinearOrderedField K]
    (vrs : List VectorSearchResult) (m : List (String × SearchResult K)) {k : String}
    (h : k ∉ vrs.map (fun v => toString v.id)) :
    alGet (vrs.foldl mergeStepVector m) k = alGet m k := by
  induction vrs generalizing m with
  | nil => rfl
  | cons r t ih =>
    rw [List.map_cons, List.mem_cons] at h
    push_neg at h
    rw [List.foldl_cons, ih (mergeStepVector m r) h.2, mergeStepVector,
      alGet_alSet_ne _ _ h.1]

theorem bm25Fold_keys_sub {K : Type} [LinearOrderedField K]
    (brs : List (BM25SearchResult K)) (m : List (String × SearchResult K))
    (s : List String) (hm : ∀ e ∈ m, e.1 ∈ s) (hb : ∀ b ∈ brs, b.id ∈ s) :
    ∀ e ∈ brs.foldl mergeStepBM25 m, e.1 ∈ s := by
  induction brs generalizing m with
  | nil => exact hm
  | cons r t ih =>
    refine ih (mergeStepBM25 m r) ?_ (fun b hb2 => hb b (List.mem_cons_of_mem r hb2))
    intro e he
    rw [mergeStepBM25] at he
    rcases mem_alSet he with rfl | he2
    · exact hb r (List.mem_cons_self r t)
    · exact hm e he2

theorem vectorFold_bm25_zero {K : Type} [LinearOrderedField K]
    (vrs : List VectorSearchResult) (m : List (String × SearchResult K))
    (P : String → Prop) (hm : ∀ e ∈ m, P e.1 → e.2.bm25Score = 0) :
    ∀ e ∈ vrs.foldl mergeStepVector m, P e.1 → e.2.bm25Score = 0 := by
  induction vrs generalizing m with
  | nil => exact hm
  | cons r t ih =>
    refine ih (mergeStepVector m r) ?_
    intro e he hp
    rw [mergeStepVector] at he
    rcases mem_alSet he with rfl | he2
    · rcases hget : alGet m (toString r.id) with _ | g
      · simp [hget]
      · have h := hm _ (alGet_eq_some_mem hget) hp
        simp only [hget, Option.getD_some]
        exact h
    · exact hm e he2 hp

theorem mergeResults_spec (brs : List (BM25SearchResult ℝ)) (vrs : List VectorSearchResult)
    (wb wv : ℝ) :
    (∀ e ∈ mergeResults brs vrs wb wv,
      e.combinedScore = e.bm25Score * wb + e.vectorScore * wv) ∧
    (∀ b ∈ brs, ∃ e ∈ mergeResults brs vrs wb wv, e.id = b.id) ∧
    (∀ v ∈ vrs, ∃ e ∈ mergeResults brs vrs wb wv, e.id = toString v.id) ∧
    (∀ v ∈ vrs, toString v.id ∉ brs.map (fun b => b.id) →
      ∃ e ∈ mergeResults brs vrs wb wv, e.id = toString v.id ∧ e.bm25Score = 0) ∧
    (∀ b ∈ brs, b.id ∉ vrs.map (fun v => toString v.id) →
      ∃ e ∈ mergeResults brs vrs wb wv, e.id = b.id ∧ e.vectorScore = 0) := by
  have hout : mergeResults brs vrs wb wv =
      sortDescBy (fun r => r.combinedScore)
        ((vrs.foldl mergeStepVector (brs.foldl mergeStepBM25 [])).map
          (fun e => { e.2 with
            combinedScore := e.2.bm25Score * wb + e.2.vectorScore * wv })) := rfl
  have hm1inv : ∀ e ∈ brs.foldl mergeStepBM25 ([] : List (String × SearchResult ℝ)),
      e.2.id = e.1 ∧ e.2.vectorScore = 0 :=
    bm25Fold_inv brs [] (by simp)
  have hm2id : ∀ e ∈ vrs.foldl mergeStepVector (brs.foldl mergeStepBM25
      ([] : List (String × SearchResult ℝ))), e.2.id = e.1 :=
    vectorFold_id vrs _ (fun e he => (hm1inv e he).1)
  have hmem : ∀ (k : String) (g : SearchResult ℝ),
      (k, g) ∈ vrs.foldl mergeStepVector (brs.foldl mergeStepBM25
        ([] : List (String × SearchResult ℝ))) →
      ∃ e ∈ mergeResults brs vrs wb wv,
        e.id = k ∧ e.bm25Score = g.bm25Score ∧ e.vectorScore = g.vectorScore := by
    intro k g hkg
    refine ⟨{ g with combinedScore := g.bm25Score * wb + g.vectorScore * wv }, ?_, ?_, rfl, rfl⟩
    · rw [hout, mem_sortDescBy]
      exact List.mem_map.mpr ⟨(k, g), hkg, rfl⟩
    · exact hm2id (k, g) hkg
  refine ⟨?_, ?_, ?_, ?_, ?_⟩
  · intro e he
    rw [hout, mem_sortDescBy] at he
    rcases List.mem_map.mp he with ⟨x, _, rfl⟩
    rfl
  · intro b hb
    have hp : (alGet (vrs.foldl mergeStepVector (brs.foldl mergeStepBM25
        ([] : List (String × SearchResult ℝ)))) b.id).isSome = true :=
      vectorFold_get_mono vrs _ (bm25Fold_key_present brs [] b hb)
    rcases Option.isSome_iff_exists.mp hp with ⟨g, hg⟩
    rcases hmem b.id g (alGet_eq_some_mem hg) with ⟨e, he, hid, _, _⟩
    exact ⟨e, he, hid⟩
  · intro v hv
    have hp : (alGet (vrs.foldl mergeStepVector (brs.foldl mergeStepBM25
        ([] : List (String × SearchResult ℝ)))) (toString v.id)).isSome = true :=
      vectorFold_key_present vrs _ v hv
    rcases Option.isSome_iff_exists.mp hp with ⟨g, hg⟩
    rcases hmem (toString v.id) g (alGet_eq_some_mem hg) with ⟨e, he, hid, _, _⟩
    exact ⟨e, he, hid⟩
  · intro v hv hnotb
    have hp : (alGet (vrs.foldl mergeStepVector (brs.foldl mergeStepBM25
        ([] : List (String × SearchResult ℝ)))) (toString v.id)).isSome = true :=
      vectorFold_key_present vrs _ v hv
    rcases Option.isSome_iff_exists.mp hp with ⟨g, hg⟩
    have hz : g.bm25Score = 0 := by
      have hkeys : ∀ e ∈ brs.foldl mergeStepBM25 ([] : List (String × SearchResult ℝ)),
          e.1 ∈ brs.map (fun b => b.id) :=
        bm25Fold_keys_sub brs [] (brs.map (fun b => b.id)) (by simp)
          (fun b hb => List.mem_map.mpr ⟨b, hb, rfl⟩)
      have hQ : ∀ e ∈ brs.foldl mergeStepBM25 ([] : List (String × SearchResult ℝ)),
          (e.1 ∉ brs.map (fun b => b.id)) → e.2.bm25Score = 0 :=
        fun e he hne => absurd (hkeys e he) hne
      exact vectorFold_bm25_zero vrs _ (fun k => k ∉ brs.map (fun b => b.id)) hQ
        (toString v.id, g) (alGet_eq_some_mem hg) hnotb
    rcases hmem (toString v.id) g (alGet_eq_some_mem hg) with ⟨e, he, hid, hb25, _⟩
    exact ⟨e, he, hid, by rw [hb25, hz]⟩
  · intro b hb hnotv
    have hst : alGet (vrs.foldl mergeStepVector (brs.foldl mergeStepBM25
        ([] : List (String × SearchResult ℝ)))) b.id =
        alGet (brs.foldl mergeStepBM25 ([] : List (String × SearchResult ℝ))) b.id :=
      vectorFold_get_stable vrs _ hnotv
    have hp : (alGet (brs.foldl mergeStepBM25
        ([] : List (String × SearchResult ℝ))) b.id).isSome = true :=
      bm25Fold_key_present brs [] b hb
    rcases Option.isSome_iff_exists.mp hp with ⟨g, hg⟩
    have hv0 : g.vectorScore = 0 := (hm1inv (b.id, g) (alGet_eq_some_mem hg)).2
    have hg2 : alGet (vrs.foldl mergeStepVector (brs.foldl mergeStepBM25
        ([] : List (String × SearchResult ℝ)))) b.id = some g := by rw [hst, hg]
    rcases hmem b.id g (alGet_eq_some_mem hg2) with ⟨e, he, hid, _, hvs⟩
    exact ⟨e, he, hid, by rw [hvs, hv0]⟩

/-- C1 (amended): `mergeResults` merges into one map KEYED BY STRINGS that
differ between the two sides — the BM25 result id is the chunk id string
while the vector result id is the decimal string of the integer FAISS
label.  Every entry's combined score is
`bm25Score·w_b + vectorScore·w_v` with the missing side contributing 0,
every BM25 result id and every stringified vector label appears among the
merged entries, and an id present on only one side has the other side's
score equal to 0.  In particular a chunk returned by both searches gives
TWO entries (one per id space), not one. -/
theorem c1_merge_amended (brs : List (BM25SearchResult ℝ)) (vrs : List VectorSearchResult)
    (wb wv : ℝ) :
    (∀ e ∈ mergeResults brs vrs wb wv,
      e.combinedScore = e.bm25Score * wb + e.vectorScore * wv) ∧
    (∀ b ∈ brs, ∃ e ∈ mergeResults brs vrs wb wv, e.id = b.id) ∧
    (∀ v ∈ vrs, ∃ e ∈ mergeResults brs vrs wb wv, e.id = toString v.id) ∧
    (∀ v ∈ vrs, toString v.id ∉ brs.map (fun b => b.id) →
      ∃ e ∈ mergeResults brs vrs wb wv, e.id = toString v.id ∧ e.bm25Score = 0) ∧
    (∀ b ∈ brs, b.id ∉ vrs.map (fun v => toString v.id) →
      ∃ e ∈ mergeResults brs vrs wb wv, e.id = b.id ∧ e.vectorScore = 0) :=
  mergeResults_spec brs vrs wb wv

/-- C1 (witness): a concrete instance of the amended statement — merging no
BM25 results with one vector result for label 0 yields an entry keyed
`"0"` whose BM25 score is 0. -/
theorem c1_merge_amended_witness :
    ∃ e ∈ mergeResults ([] : List (BM25SearchResult ℝ))
      [{ id := 0, score := 1, distance := 0, metadata := emptyVectorMetadata }]
      (3 / 10) (7 / 10),
      e.id = toString (0 : ℕ) ∧ e.bm25Score = 0 :=
  (c1_merge_amended [] [{ id := 0, score := 1, distance := 0, metadata := emptyVectorMetadata }]
      (3 / 10) (7 / 10)).2.2.2.1
    { id := 0, score := 1, distance := 0, metadata := emptyVectorMetadata }
    (List.mem_singleton.mpr rfl) (by simp)

set_option maxRecDepth 40000 in
/-- C1 (counterexample): the two indices contain the SAME chunk (`a.ts`,
lines 1-2, chunk id `a.ts:1-2`, vector label 0) and both searches return
it, yet the merge does NOT produce one entry for it: the BM25 side is
keyed by the chunk id string and the vector side by the stringified
integer label `"0"`, so the merged map has TWO entries — the chunk-id
entry with `vectorScore = 0` and the label entry with `bm25Score = 0` —
and no entry carries `w_b·bm25 + w_v·vector` of the shared chunk. -/
theorem c1_merge_counterexample :
    (mergeDemoBM25Index.search Real.log "foo" 1).map (fun r => r.id) = ["a.ts:1-2"] ∧
    (mergeDemoVectorIndex.searchIndex zeroQueryVec 1).map
      (fun r => (r.id, r.metadata.filePath, r.metadata.startLine, r.metadata.endLine)) =
      [(0, some "a.ts", some 1, some 2)] ∧
    sharedChunkBM25Metadata.filePath = "a.ts" ∧
    sharedChunkBM25Metadata.startLine = 1 ∧
    sharedChunkBM25Metadata.endLine = 2 ∧
    (mergeResults (mergeDemoBM25Index.search Real.log "foo" 1)
      (mergeDemoVectorIndex.searchIndex zeroQueryVec 1) (3 / 10) (7 / 10)).length = 2 ∧
    (∃ e ∈ mergeResults (mergeDemoBM25Index.search Real.log "foo" 1)
        (mergeDemoVectorIndex.searchIndex zeroQueryVec 1) (3 / 10) (7 / 10),
      e.id = "a.ts:1-2" ∧ e.vectorScore = 0) ∧
    (∃ e ∈ mergeResults (mergeDemoBM25Index.search Real.log "foo" 1)
        (mergeDemoVectorIndex.searchIndex zeroQueryVec 1) (3 / 10) (7 / 10),
      e.id = "0" ∧ e.bm25Score = 0) := by
  have hbrs : mergeDemoBM25Index.search Real.log "foo" 1 =
      [{ id := "a.ts:1-2", score := mergeDemoScore, metadata := sharedChunkBM25Metadata }] := rfl
  have hvrs := mergeDemoVector_search
  have hspec := mergeResults_spec (mergeDemoBM25Index.search Real.log "foo" 1)
    (mergeDemoVectorIndex.searchIndex zeroQueryVec 1) (3 / 10) (7 / 10)
  refine ⟨by rw [hbrs]; rfl, by rw [hvrs]; rfl, rfl, rfl, rfl, ?_, ?_, ?_⟩
  · have hout : mergeResults (mergeDemoBM25Index.search Real.log "foo" 1)
        (mergeDemoVectorIndex.searchIndex zeroQueryVec 1) (3 / 10) (7 / 10) =
        sortDescBy (fun r => r.combinedScore)
          (((mergeDemoVectorIndex.searchIndex zeroQueryVec 1).foldl mergeStepVector
            ((mergeDemoBM25Index.search Real.log "foo" 1).foldl mergeStepBM25 [])).map
            (fun e => { e.2 with
              combinedScore := e.2.bm25Score * (3 / 10) + e.2.vectorScore * (7 / 10) })) := rfl
    rw [hout, sortDescBy_length, List.length_map, hbrs, hvrs]
    rfl
  · have h := hspec.2.2.2.2
      { id := "a.ts:1-2", score := mergeDemoScore, metadata := sharedChunkBM25Metadata }
      (by rw [hbrs]; exact List.mem_singleton.mpr rfl)
      (by rw [hvrs]; decide)
    exact h
  · have h := hspec.2.2.2.1
      { id := 0, score := 1, distance := 0, metadata := chunkStoredMetadata sharedChunk }
      (by rw [hvrs]; exact List.mem_singleton.mpr rfl)
      (by rw [hbrs]; decide)
    exact h

set_option maxRecDepth 40000 in
/-- C4: the BM25 score of spec §8 seed 3.  For the single document of
length 10 containing the token `foo` twice (N = 1, avg_dl = 10), searching
`"foo"` returns exactly one result whose score is EXACTLY
`ln(1 + 1/3 + 0.25) · 4.4/3.2` — the idf `ln(1 + (N − n + 0.5)/(n + 0.5) + ε)`
times `(f·(k1+1))/(f + k1·(1 − b + b·dl/avg_dl))` with the code's defaults
`k1 = 1.2`, `b = 0.75`, `ε = 0.25` — and therefore matches that value to
within `1e-9`. -/
theorem c4_bm25_formula :
    fooPaddedIndex.search Real.log "foo" 5 =
      [{ id := "d1", score := fooPaddedScore, metadata := defaultBM25Metadata }] ∧
    fooPaddedScore = Real.log (1 + 1 / 3 + 0.25) * (4.4 / 3.2) ∧
    |fooPaddedScore - Real.log (1 + 1 / 3 + 0.25) * (4.4 / 3.2)| ≤ 1e-9 := by
  have hval : fooPaddedScore = Real.log (1 + 1 / 3 + 0.25) * (4.4 / 3.2) := by
    have h1 : fooPaddedIndex.documentCount = 1 := rfl
    have h2 : ((alGet fooPaddedIndex.invertedIndex "foo").getD []).length = 1 := rfl
    have h3 : fooPaddedIndex.documentLengths.getD 0 0 = 10 := rfl
    have h4 : fooPaddedIndex.epsilon = (1 : ℝ) / 4 := rfl
    have h5 : fooPaddedIndex.k1 = (12 : ℝ) / 10 := rfl
    have h6 : fooPaddedIndex.b = (3 : ℝ) / 4 := rfl
    have h7a : fooPaddedIndex.averageDocumentLength =
        (0 * ((0 : ℕ) : ℝ) + ((10 : ℕ) : ℝ)) / (((0 : ℕ) : ℝ) + 1) := rfl
    have h7 : fooPaddedIndex.averageDocumentLength = 10 := by
      rw [h7a]
      push_cast
      norm_num
    rw [fooPaddedScore, BM25Index.calculateBM25Score, BM25Index.calculateIDF]
    rw [h1, h2, h3, h4, h5, h6, h7]
    rw [zero_add]
    congr 1
    · congr 1
      push_cast
      norm_num
    · push_cast
      norm_num
  refine ⟨rfl, hval, ?_⟩
  rw [hval, sub_self, abs_zero]
  norm_num

theorem alGet_eq_none_iff {κ α : Type} [DecidableEq κ] {m : List (κ × α)} {k : κ} :
    alGet m k = none ↔ k ∉ m.map Prod.fst := by
  rw [← alGet_isSome_iff, Option.isSome_iff_ne_none]
  tauto

theorem alGet_of_mem_nodup {κ α : Type} [DecidableEq κ] {m : List (κ × α)} {k : κ} {v : α}
    (hnd : (m.map Prod.fst).Nodup) (hm : (k, v) ∈ m) : alGet m k = some v := by
  induction m with
  | nil => cases hm
  | cons e t ih =>
    obtain ⟨k1, v1⟩ := e
    rw [List.map_cons, List.nodup_cons] at hnd
    rcases List.mem_cons.mp hm with heq | hm2
    · rcases Prod.mk.injEq .. ▸ heq with ⟨rfl, rfl⟩
      rw [alGet, if_pos rfl]
    · have hk : k ≠ k1 := by
        rintro rfl
        exact hnd.1 (List.mem_map.mpr ⟨(k, v), hm2, rfl⟩)
      rw [alGet, if_neg hk]
      exact ih hnd.2 hm2

theorem tally_snd_ge_one (toks : List String) (st : List String × List (String × ℕ))
    (hst : ∀ e ∈ st.2, 1 ≤ e.2) :
    ∀ e ∈ (toks.foldl tallyToken st).2, 1 ≤ e.2 := by
  induction toks generalizing st with
  | nil => exact hst
  | cons tok t ih =>
    refine ih (tallyToken st tok) ?_
    intro e he
    rw [tallyToken] at he
    rcases mem_alSet he with rfl | he2
    · exact Nat.le_add_left 1 _
    · exact hst e he2

theorem tally_keys_nodup (toks : List String) (st : List String × List (String × ℕ))
    (hst : (st.2.map Prod.fst).Nodup) :
    ((toks.foldl tallyToken st).2.map Prod.fst).Nodup := by
  induction toks generalizing st with
  | nil => exact hst
  | cons tok t ih => exact ih (tallyToken st tok) (alSet_keys_nodup hst)

theorem invFold_get (docIndex : ℕ) (tf : List (String × ℕ))
    (inv : List (String × List Posting)) (hnd : (tf.map Prod.fst).Nodup) (t : String) :
    alGet (tf.foldl
      (fun inv e => alSet inv e.1 ((alGet inv e.1).getD [] ++ [Posting.mk docIndex e.2]))
      inv) t =
    match alGet tf t with
    | some f => some ((alGet inv t).getD [] ++ [Posting.mk docIndex f])
    | none => alGet inv t := by
  induction tf generalizing inv with
  | nil => rfl
  | cons e rest ih =>
    obtain ⟨tk, tv⟩ := e
    rw [List.map_cons, List.nodup_cons] at hnd
    rw [List.foldl_cons, ih _ hnd.2]
    by_cases heq : t = tk
    · subst heq
      have hrest : alGet rest t = none :=
        alGet_eq_none_iff.mpr hnd.1
      rw [hrest]
      have hcons : alGet ((t, tv) :: rest) t = some tv := by
        rw [alGet, if_pos rfl]
      rw [hcons]
      simp only [alGet_alSet_self]
    · have hcons : alGet ((tk, tv) :: rest) t = alGet rest t := by
        rw [alGet, if_neg heq]
      rw [hcons, alGet_alSet_ne _ _ heq]

theorem foldl_alSet_keys_nodup {κ α β : Type} [DecidableEq κ]
    (l : List β) (keyOf : β → κ) (valOf : List (κ × α) → β → α)
    (m : List (κ × α)) (hm : (m.map Prod.fst).Nodup) :
    ((l.foldl (fun m e => alSet m (keyOf e) (valOf m e)) m).map Prod.fst).Nodup := by
  induction l generalizing m with
  | nil => exact hm
  | cons e t ih => exact ih _ (alSet_keys_nodup hm)

theorem addDocument_eq {K : Type} [LinearOrderedField K] (idx : BM25Index K) (d : BM25Document)
    (hnot : (alGet idx.documentMetadata d.id).isSome = false) :
    idx.addDocument d =
      { idx with
        documents := idx.documents ++ [(d.id, d.content)],
        documentMetadata := alSet idx.documentMetadata d.id d.metadata,
        documentLengths :=
          idx.documentLengths ++ [(tokenize idx.tokenizationOptions d.content).length],
        averageDocumentLength :=
          (idx.averageDocumentLength * (idx.documentCount : K) +
            ((tokenize idx.tokenizationOptions d.content).length : K)) /
            ((idx.documentCount : K) + 1),
        documentCount := idx.documentCount + 1,
        vocabulary :=
          ((tokenize idx.tokenizationOptions d.content).foldl tallyToken
            (idx.vocabulary, [])).1,
        invertedIndex :=
          (((tokenize idx.tokenizationOptions d.content).foldl tallyToken
            (idx.vocabulary, [])).2).foldl
            (fun inv e => alSet inv e.1
              ((alGet inv e.1).getD [] ++ [Posting.mk idx.documentCount e.2]))
            idx.invertedIndex } := by
  rw [BM25Index.addDocument, if_neg (by rw [hnot]; exact Bool.false_ne_true)]

theorem bm25Inv_mk (K : Type) [LinearOrderedField K] : BM25Inv (mkBM25Index K) := by
  refine ⟨rfl, rfl, rfl, rfl, rfl, ?_, ?_, ?_, ?_, ?_⟩
  · intro tp htp
    cases htp
  · intro tp htp
    cases htp
  · intro tp htp
    cases htp
  · exact List.nodup_nil
  · show (0 : K) * ((0 : ℕ) : K) = ((0 : ℕ) : K)
    simp

theorem bm25Inv_addDocument {K : Type} [LinearOrderedField K] {idx : BM25Index K}
    (hinv : BM25Inv idx) (d : BM25Document) : BM25Inv (idx.addDocument d) := by
  rcases hsome : (alGet idx.documentMetadata d.id).isSome with _ | _
  case true =>
    rw [BM25Index.addDocument, if_pos hsome]
    exact hinv
  case false =>
    rw [addDocument_eq idx d hsome]
    have htfnd : ((((tokenize idx.tokenizationOptions d.content).foldl tallyToken
        (idx.vocabulary, [])).2).map Prod.fst).Nodup :=
      tally_keys_nodup _ _ List.nodup_nil
    have htf1 : ∀ e ∈ (((tokenize idx.tokenizationOptions d.content).foldl tallyToken
        (idx.vocabulary, [])).2), 1 ≤ e.2 :=
      tally_snd_ge_one _ _ (by intro e he; cases he)
    have hinvnd : ((((((tokenize idx.tokenizationOptions d.content).foldl tallyToken
        (idx.vocabulary, [])).2).foldl
        (fun inv e => alSet inv e.1
          ((alGet inv e.1).getD [] ++ [Posting.mk idx.documentCount e.2]))
        idx.invertedIndex)).map Prod.fst).Nodup :=
      foldl_alSet_keys_nodup _ Prod.fst _ idx.invertedIndex hinv.inv_nodup
    have hchar : ∀ tp ∈ ((((tokenize idx.tokenizationOptions d.content).foldl tallyToken
        (idx.vocabulary, [])).2).foldl
        (fun inv e => alSet inv e.1
          ((alGet inv e.1).getD [] ++ [Posting.mk idx.documentCount e.2]))
        idx.invertedIndex),
        (∃ f, alGet (((tokenize idx.tokenizationOptions d.content).foldl tallyToken
            (idx.vocabulary, [])).2) tp.1 = some f ∧
          tp.2 = (alGet idx.invertedIndex tp.1).getD [] ++ [Posting.mk idx.documentCount f]) ∨
        ((tp.1, tp.2) ∈ idx.invertedIndex) := by
      intro tp htp
      have hget := alGet_of_mem_nodup hinvnd (by exact htp)
      rw [invFold_get idx.documentCount _ idx.invertedIndex htfnd tp.1] at hget
      rcases htf : alGet (((tokenize idx.tokenizationOptions d.content).foldl tallyToken
          (idx.vocabulary, [])).2) tp.1 with _ | f
      · rw [htf] at hget
        exact Or.inr (alGet_eq_some_mem hget)
      · rw [htf] at hget
        have heq := (Option.some_inj.mp hget).symm
        exact Or.inl ⟨f, rfl, heq⟩
    have hlen_old : ∀ (i : ℕ), i < idx.documentCount →
        (idx.documentLengths ++
          [(tokenize idx.tokenizationOptions d.content).length]).getD i 0 =
        idx.documentLengths.getD i 0 := by
      intro i hi
      exact List.getD_append _ _ 0 i (by rw [hinv.lens_len]; exact hi)
    refine ⟨hinv.params_k1, hinv.params_b, hinv.params_eps, ?_, ?_, ?_, ?_, ?_, hinvnd, ?_⟩
    · show (idx.documents ++ [(d.id, d.content)]).length = idx.documentCount + 1
      rw [List.length_append, hinv.docs_len]
      rfl
    · show (idx.documentLengths ++ _).length = idx.documentCount + 1
      rw [List.length_append, hinv.lens_len]
      rfl
    · intro tp htp
      show tp.2.length ≤ idx.documentCount + 1
      rcases hchar tp htp with ⟨f, htf, heq⟩ | hold
      · rw [heq, List.length_append]
        rcases hg : alGet idx.invertedIndex tp.1 with _ | ps
        · simp
        · have hc : ps.length ≤ idx.documentCount :=
            hinv.postings_count (tp.1, ps) (alGet_eq_some_mem hg)
          simp only [hg, Option.getD_some, List.length_singleton]
          omega
      · have hc : tp.2.length ≤ idx.documentCount :=
          hinv.postings_count (tp.1, tp.2) hold
        omega
    · intro tp htp
      rcases hchar tp htp with ⟨f, htf, heq⟩ | hold
      · rw [heq]
        simp
      · exact hinv.postings_ne (tp.1, tp.2) hold
    · intro tp htp p hp
      rcases hchar tp htp with ⟨f, htf, heq⟩ | hold
      · rw [heq] at hp
        rcases List.mem_append.mp hp with hp | hp
        · rcases hg : alGet idx.invertedIndex tp.1 with _ | ps
          · rw [hg] at hp
            cases hp
          · rw [hg] at hp
            have h := hinv.postings_ok (tp.1, ps) (alGet_eq_some_mem hg) p hp
            refine ⟨Nat.lt_succ_of_lt h.1, h.2.1, ?_⟩
            rw [hlen_old p.docIndex h.1]
            exact h.2.2
        · rcases List.mem_singleton.mp hp with rfl
          have htoks : tokenize idx.tokenizationOptions d.content ≠ [] := by
            intro hnil
            rw [hnil] at htf
            cases htf
          refine ⟨Nat.lt_succ_self _, htf1 _ (alGet_eq_some_mem htf), ?_⟩
          show 1 ≤ (idx.documentLengths ++
            [(tokenize idx.tokenizationOptions d.content).length]).getD idx.documentCount 0
          have hend : (idx.documentLengths ++
              [(tokenize idx.tokenizationOptions d.content).length]).getD
                idx.documentCount 0 =
              (tokenize idx.tokenizationOptions d.content).length := by
            rw [← hinv.lens_len]
            rw [List.getD_append_right _ _ 0 _ (le_refl _)]
            simp
          rw [hend]
          exact List.length_pos.mpr htoks
      · have h := hinv.postings_ok (tp.1, tp.2) hold p hp
        refine ⟨Nat.lt_succ_of_lt h.1, h.2.1, ?_⟩
        rw [hlen_old p.docIndex h.1]
        exact h.2.2
    · show (idx.averageDocumentLength * (idx.documentCount : K) +
          ((tokenize idx.tokenizationOptions d.content).length : K)) /
          ((idx.documentCount : K) + 1) * ((idx.documentCount + 1 : ℕ) : K) =
        (((idx.documentLengths ++
          [(tokenize idx.tokenizationOptions d.content).length]).sum : ℕ) : K)
      have hne : ((idx.documentCount : K) + 1) ≠ 0 := by positivity
      have hsum : (idx.documentLengths ++
          [(tokenize idx.tokenizationOptions d.content).length]).sum =
          idx.documentLengths.sum + (tokenize idx.tokenizationOptions d.content).length := by
        rw [List.sum_append]
        simp
      have hc1 : ((idx.documentLengths.sum +
          (tokenize idx.tokenizationOptions d.content).length : ℕ) : K) =
          ((idx.documentLengths.sum : ℕ) : K) +
            (((tokenize idx.tokenizationOptions d.content).length : ℕ) : K) := by
        push_cast
        ring
      have hc2 : ((idx.documentCount + 1 : ℕ) : K) = (idx.documentCount : K) + 1 := by
        push_cast
        ring
      rw [hsum, hc1, hc2, div_mul_cancel₀ _ hne, hinv.avg_eq]

theorem bm25Inv_addDocuments {K : Type} [LinearOrderedField K] {idx : BM25Index K}
    (hinv : BM25Inv idx) (docs : List BM25Document) : BM25Inv (idx.addDocuments docs) := by
  induction docs generalizing idx with
  | nil => exact hinv
  | cons d t ih => exact ih (bm25Inv_addDocument hinv d)

theorem avg_pos_of_posting {K : Type} [LinearOrderedField K] {idx : BM25Index K}
    (hinv : BM25Inv idx) {i : ℕ} (hiN : i < idx.documentCount)
    (hdl : 1 ≤ idx.documentLengths.getD i 0) : 0 < idx.averageDocumentLength := by
  have hidx : i < idx.documentLengths.length := by
    rw [hinv.lens_len]
    exact hiN
  have hsum1 : 1 ≤ idx.documentLengths.sum := by
    refine le_trans hdl ?_
    rw [List.getD_eq_getElem _ _ hidx]
    exact List.single_le_sum (fun x _ => Nat.zero_le x) _ (List.getElem_mem hidx)
  have hN : 0 < idx.documentCount := Nat.pos_of_ne_zero (by omega)
  have hNK : (0 : K) < (idx.documentCount : K) := by exact_mod_cast hN
  have hsK : (0 : K) < ((idx.documentLengths.sum : ℕ) : K) := by exact_mod_cast hsum1
  have havg : idx.averageDocumentLength = ((idx.documentLengths.sum : ℕ) : K) /
      (idx.documentCount : K) := by
    rw [eq_div_iff (ne_of_gt hNK)]
    exact hinv.avg_eq
  rw [havg]
  exact div_pos hsK hNK

theorem calcScore_nonneg {K : Type} [LinearOrderedField K] {lg : K → K} {idx : BM25Index K}
    (hinv : BM25Inv idx) (hlg : ∀ x : K, 1 ≤ x → 0 ≤ lg x)
    {t : String} {ps : List Posting} (hps : alGet idx.invertedIndex t = some ps)
    {p : Posting} (hp : p ∈ ps) :
    0 ≤ BM25Index.calculateBM25Score idx p.docIndex p.frequency
      (BM25Index.calculateIDF lg idx t) := by
  have hmem := alGet_eq_some_mem hps
  have hne : ps ≠ [] := hinv.postings_ne (t, ps) hmem
  have hn1 : 1 ≤ ps.length := List.length_pos.mpr hne
  have hnN : ps.length ≤ idx.documentCount := hinv.postings_count (t, ps) hmem
  have hpo := hinv.postings_ok (t, ps) hmem p hp
  have havg : 0 < idx.averageDocumentLength := avg_pos_of_posting hinv hpo.1 hpo.2.2
  have hidf : 0 ≤ BM25Index.calculateIDF lg idx t := by
    rw [BM25Index.calculateIDF]
    simp only [hps, Option.getD_some]
    rw [hinv.params_eps]
    refine hlg _ ?_
    have hfrac : (0 : K) ≤ ((idx.documentCount : K) - (ps.length : K) + 1 / 2) /
        ((ps.length : K) + 1 / 2) := by
      refine div_nonneg ?_ ?_
      · have : ((ps.length : K)) ≤ (idx.documentCount : K) := by exact_mod_cast hnN
        linarith
      · positivity
    linarith
  rw [BM25Index.calculateBM25Score]
  refine mul_nonneg hidf ?_
  rw [hinv.params_k1, hinv.params_b]
  have hf1 : (1 : K) ≤ (p.frequency : K) := by exact_mod_cast hpo.2.1
  have hdl0 : (0 : K) ≤ ((idx.documentLengths.getD p.docIndex 0 : ℕ) : K) :=
    Nat.cast_nonneg _
  have hx : (0 : K) ≤ ((idx.documentLengths.getD p.docIndex 0 : ℕ) : K) /
      idx.averageDocumentLength := div_nonneg hdl0 (le_of_lt havg)
  refine div_nonneg ?_ ?_
  · nlinarith
  · nlinarith

theorem scorePostings_P {K : Type} [LinearOrderedField K] {lg : K → K} {idx : BM25Index K}
    (hinv : BM25Inv idx) (hlg : ∀ x : K, 1 ≤ x → 0 ≤ lg x)
    {t : String} {ps : List Posting} (hps : alGet idx.invertedIndex t = some ps) :
    ∀ (ps2 : List Posting), (∀ p ∈ ps2, p ∈ ps) → ∀ (m : List (String × K)),
      ((∀ e ∈ m, 0 ≤ e.2) ∧ ((m.map Prod.fst).Nodup) ∧
        (∀ e ∈ m, e.1 ∈ idx.documents.map Prod.fst)) →
      ((∀ e ∈ ps2.foldl
          (fun m p => alSet m (idx.docIdAt p.docIndex)
            ((alGet m (idx.docIdAt p.docIndex)).getD 0 +
              BM25Index.calculateBM25Score idx p.docIndex p.frequency
                (BM25Index.calculateIDF lg idx t))) m, 0 ≤ e.2) ∧
        (((ps2.foldl
          (fun m p => alSet m (idx.docIdAt p.docIndex)
            ((alGet m (idx.docIdAt p.docIndex)).getD 0 +
              BM25Index.calculateBM25Score idx p.docIndex p.frequency
                (BM25Index.calculateIDF lg idx t))) m).map Prod.fst).Nodup) ∧
        (∀ e ∈ ps2.foldl
          (fun m p => alSet m (idx.docIdAt p.docIndex)
            ((alGet m (idx.docIdAt p.docIndex)).getD 0 +
              BM25Index.calculateBM25Score idx p.docIndex p.frequency
                (BM25Index.calculateIDF lg idx t))) m,
          e.1 ∈ idx.documents.map Prod.fst)) := by
  intro ps2
  induction ps2 with
  | nil => intro _ m hm; exact hm
  | cons p rest ih =>
    intro hsub m hm
    obtain ⟨hm1, hm2, hm3⟩ := hm
    have hpmem : p ∈ ps := hsub p (List.mem_cons_self p rest)
    have hpo := hinv.postings_ok (t, ps) (alGet_eq_some_mem hps) p hpmem
    rw [List.foldl_cons]
    refine ih (fun q hq => hsub q (List.mem_cons_of_mem p hq)) _ ⟨?_, alSet_keys_nodup hm2, ?_⟩
    · intro e he
      rcases mem_alSet he with rfl | he2
      · have hold : (0 : K) ≤ (alGet m (idx.docIdAt p.docIndex)).getD 0 := by
          rcases hg : alGet m (idx.docIdAt p.docIndex) with _ | v
          · simp
          · simpa using hm1 _ (alGet_eq_some_mem hg)
        have hc := calcScore_nonneg hinv hlg hps hpmem
        simpa using add_nonneg hold hc
      · exact hm1 e he2
    · intro e he
      rcases mem_alSet he with rfl | he2
      · have hiN : p.docIndex < idx.documents.length := by
          rw [hinv.docs_len]
          exact hpo.1
        show idx.docIdAt p.docIndex ∈ idx.documents.map Prod.fst
        rw [BM25Index.docIdAt, List.getD_eq_getElem _ _ hiN]
        exact List.mem_map.mpr ⟨_, List.getElem_mem hiN, rfl⟩
      · exact hm3 e he2

theorem scoreEntries_P {K : Type} [LinearOrderedField K] {lg : K → K} {idx : BM25Index K}
    (hinv : BM25Inv idx) (hlg : ∀ x : K, 1 ≤ x → 0 ≤ lg x) (q : String) :
    (∀ e ∈ BM25Index.scoreEntries lg idx q, 0 ≤ e.2) ∧
    (((BM25Index.scoreEntries lg idx q).map Prod.fst).Nodup) ∧
    (∀ e ∈ BM25Index.scoreEntries lg idx q, e.1 ∈ idx.documents.map Prod.fst) := by
  rw [BM25Index.scoreEntries]
  have hgen : ∀ (toks : List String) (m : List (String × K)),
      ((∀ e ∈ m, 0 ≤ e.2) ∧ ((m.map Prod.fst).Nodup) ∧
        (∀ e ∈ m, e.1 ∈ idx.documents.map Prod.fst)) →
      ((∀ e ∈ toks.foldl (BM25Index.scoreTerm lg idx) m, 0 ≤ e.2) ∧
        (((toks.foldl (BM25Index.scoreTerm lg idx) m).map Prod.fst).Nodup) ∧
        (∀ e ∈ toks.foldl (BM25Index.scoreTerm lg idx) m,
          e.1 ∈ idx.documents.map Prod.fst)) := by
    intro toks
    induction toks with
    | nil => intro m hm; exact hm
    | cons tok rest ih =>
      intro m hm
      rw [List.foldl_cons]
      refine ih _ ?_
      rw [BM25Index.scoreTerm]
      rcases hps : alGet idx.invertedIndex tok with _ | ps
      · exact hm
      · exact scorePostings_P hinv hlg hps ps (fun p hp => hp) m hm
  exact hgen _ []
    ⟨fun e he => absurd he (List.not_mem_nil e), List.nodup_nil,
      fun e he => absurd he (List.not_mem_nil e)⟩

/-- C5 (amended): for every index built by adding documents to the default
BM25 index and every query and `k`, `search` returns results ordered by
descending score, never returns a negative score, and returns at most
`min k N` results.  Ties, however, are broken by the order in which
document ids first entered the score-accumulation map (the stable sort
keeps that insertion order), NOT by the smaller document index: for two
returned results with equal scores, the one whose id occurs earlier in the
score-map entry list comes first. -/
theorem c5_search_amended (docs : List BM25Document) (q : String) (k : ℕ) :
    (((mkBM25Index ℝ).addDocuments docs).search Real.log q k).Pairwise
      (fun a b => b.score ≤ a.score) ∧
    (∀ r ∈ ((mkBM25Index ℝ).addDocuments docs).search Real.log q k, 0 ≤ r.score) ∧
    (((mkBM25Index ℝ).addDocuments docs).search Real.log q k).length ≤
      min k ((mkBM25Index ℝ).addDocuments docs).documentCount ∧
    (((mkBM25Index ℝ).addDocuments docs).search Real.log q k).Pairwise
      (fun a b => a.score = b.score →
        rankIn ((BM25Index.scoreEntries Real.log ((mkBM25Index ℝ).addDocuments docs) q).map
          Prod.fst) a.id <
        rankIn ((BM25Index.scoreEntries Real.log ((mkBM25Index ℝ).addDocuments docs) q).map
          Prod.fst) b.id) := by
  have hinv : BM25Inv ((mkBM25Index ℝ).addDocuments docs) :=
    bm25Inv_addDocuments (bm25Inv_mk ℝ) docs
  have hlg : ∀ x : ℝ, 1 ≤ x → 0 ≤ Real.log x := fun x hx => Real.log_nonneg hx
  obtain ⟨hP1, hP2, hP3⟩ := scoreEntries_P hinv hlg q
  have hsearch : ((mkBM25Index ℝ).addDocuments docs).search Real.log q k =
      (sortDescBy (fun r => r.score)
        ((BM25Index.scoreEntries Real.log ((mkBM25Index ℝ).addDocuments docs) q).map
          (fun e => BM25SearchResult.mk e.1 e.2
            ((alGet ((mkBM25Index ℝ).addDocuments docs).documentMetadata e.1).getD
              defaultBM25Metadata)))).take k := rfl
  have hAP : ((BM25Index.scoreEntries Real.log ((mkBM25Index ℝ).addDocuments docs) q).map
      (fun e => BM25SearchResult.mk e.1 e.2
        ((alGet ((mkBM25Index ℝ).addDocuments docs).documentMetadata e.1).getD
          defaultBM25Metadata))).Pairwise
      (fun a b =>
        rankIn ((BM25Index.scoreEntries Real.log ((mkBM25Index ℝ).addDocuments docs) q).map
          Prod.fst) a.id <
        rankIn ((BM25Index.scoreEntries Real.log ((mkBM25Index ℝ).addDocuments docs) q).map
          Prod.fst) b.id) := by
    have hk := rankIn_pairwise _ hP2
    rw [List.pairwise_map] at hk
    rw [List.pairwise_map]
    exact hk
  have hlex := sortDescBy_pairwise_lex (fun r : BM25SearchResult ℝ => r.score)
    (fun r => rankIn ((BM25Index.scoreEntries Real.log
      ((mkBM25Index ℝ).addDocuments docs) q).map Prod.fst) r.id)
    _ hAP
  have htake := hlex.sublist (List.take_sublist k _)
  refine ⟨?_, ?_, ?_, ?_⟩
  · rw [hsearch]
    refine htake.imp ?_
    intro a b hab
    rcases hab with h | ⟨h, _⟩
    · exact le_of_lt h
    · exact le_of_eq h.symm
  · intro r hr
    rw [hsearch] at hr
    have hr2 : r ∈ sortDescBy (fun r : BM25SearchResult ℝ => r.score)
        ((BM25Index.scoreEntries Real.log ((mkBM25Index ℝ).addDocuments docs) q).map
          (fun e => BM25SearchResult.mk e.1 e.2
            ((alGet ((mkBM25Index ℝ).addDocuments docs).documentMetadata e.1).getD
              defaultBM25Metadata))) :=
      (List.take_sublist k _).mem hr
    rw [mem_sortDescBy] at hr2
    rcases List.mem_map.mp hr2 with ⟨e, he, rfl⟩
    exact hP1 e he
  · rw [hsearch, List.length_take]
    refine le_min (min_le_left _ _) ?_
    refine le_trans (min_le_right _ _) ?_
    rw [sortDescBy_length, List.length_map]
    have hkeys : ((BM25Index.scoreEntries Real.log
        ((mkBM25Index ℝ).addDocuments docs) q).map Prod.fst).length ≤
        (((mkBM25Index ℝ).addDocuments docs).documents.map Prod.fst).length := by
      refine List.Subperm.length_le ?_
      refine List.subperm_of_subset hP2 ?_
      intro x hx
      rcases List.mem_map.mp hx with ⟨e, he, rfl⟩
      exact hP3 e he
    rw [List.length_map, List.length_map] at hkeys
    rw [← hinv.docs_len]
    exact hkeys
  · rw [hsearch]
    refine htake.imp ?_
    intro a b hab heq
    rcases hab with h | ⟨_, h⟩
    · have hlt : b.score < a.score := h
      rw [heq] at hlt
      exact absurd hlt (lt_irrefl _)
    · exact h

set_option maxRecDepth 40000 in
/-- C5 (counterexample): in the two-document index with `a = "alpha"`
(document index 0) and `b = "beta"` (document index 1), the query
`beta alpha` gives both documents exactly the same score, yet
`search` returns `b` BEFORE `a`: the score map lists `b` first because the
query term `beta` is scored first, and the stable sort keeps that order.
The claim's tie-break — the document with the smaller document index
first — would instead return `a` before `b`. -/
theorem c5_search_counterexample :
    alphaBetaIndex.documents.map Prod.fst = ["a", "b"] ∧
    alphaBetaScoreB = alphaBetaScoreA ∧
    alphaBetaIndex.search Real.log "beta alpha" 2 =
      [{ id := "b", score := alphaBetaScoreB, metadata := defaultBM25Metadata },
       { id := "a", score := alphaBetaScoreA, metadata := defaultBM25Metadata }] := by
  have hBA : alphaBetaScoreB = alphaBetaScoreA := rfl
  refine ⟨rfl, hBA, ?_⟩
  have hunfold : alphaBetaIndex.search Real.log "beta alpha" 2 =
      (sortDescBy (fun r : BM25SearchResult ℝ => r.score)
        [{ id := "b", score := alphaBetaScoreB, metadata := defaultBM25Metadata },
         { id := "a", score := alphaBetaScoreA, metadata := defaultBM25Metadata }]).take 2 := rfl
  have h1 : sortDescBy (fun r : BM25SearchResult ℝ => r.score)
      [{ id := "b", score := alphaBetaScoreB, metadata := defaultBM25Metadata },
       { id := "a", score := alphaBetaScoreA, metadata := defaultBM25Metadata }] =
      insertDescBy (fun r : BM25SearchResult ℝ => r.score)
        { id := "b", score := alphaBetaScoreB, metadata := defaultBM25Metadata }
        [{ id := "a", score := alphaBetaScoreA, metadata := defaultBM25Metadata }] := rfl
  rw [hunfold, h1]
  simp only [insertDescBy]
  rw [if_pos (le_of_eq hBA.symm)]
  rfl
